import Mathlib

/-!
Verification of the 3dConsistency data-preparation scripts.

This file gives a shallow embedding, in Lean 4, of the pure cores of the five
Python scripts of the repository:

  * `scripts/build_physics_iq_manifest.py`  (namespace `PhysIQ`)
  * `scripts/prepare_inference_layout.py`   (namespace `Prep`)
  * `scripts/subset_layout_manifests.py`    (namespace `Subset`)
  * `scripts/serve_private_gallery.py`      (namespace `Gallery`)

Strings are modelled by Lean `String` (Python `str.strip` is modelled by
`pyStrip`, Python `str.lower` by an ASCII `toLower` map, exactly as the
scripts only ever deal with ASCII file names and ids).  Filesystem queries
(`Path.is_file`, `stat`, path resolution) are modelled by explicit oracle
functions packaged in environment structures; filesystem writes are modelled
either as explicit effect lists or as explicit state (for the subsetter).
Machine-level concerns (JSON byte layout, float mtimes) are abstracted to the
level the scripts themselves use them: JSON-line files are lists of
string-valued objects and mtimes are integers compared by order.

The file is organised as: all definitions first, then all theorems.
-/

namespace Util

/-- Association-list lookup, modelling Python `dict.get` (first binding wins;
the dictionaries built by the scripts never hold duplicate keys). -/
def lookupA {κ α : Type} [DecidableEq κ] (k : κ) : List (κ × α) → Option α
  | [] => none
  | (k', v) :: rest => if k' = k then some v else lookupA k rest

/-- Association-list update, modelling Python `d[k] = v`: replaces the binding
in place if the key is present, else appends the new binding at the end
(Python dicts preserve insertion order). -/
def updateA {κ α : Type} [DecidableEq κ] (k : κ) (v : α) : List (κ × α) → List (κ × α)
  | [] => [(k, v)]
  | (k', v') :: rest => if k' = k then (k, v) :: rest else (k', v') :: updateA k v rest

/-- ASCII lower-casing of a string, modelling Python `str.lower` on the ASCII
file names these scripts work on. -/
def strLower (s : String) : String :=
  String.mk (s.data.map Char.toLower)

/-- Python's whitespace class for `str.strip` (ASCII whitespace; the ids and
paths these scripts strip are ASCII). -/
def isPySpace (c : Char) : Bool :=
  c = ' ' || c = '\t' || c = '\n' || c = '\r' || c = '\x0b' || c = '\x0c'

/-- Model of Python `str.strip()`. -/
def pyStrip (s : String) : String :=
  String.mk (((s.data.dropWhile isPySpace).reverse.dropWhile isPySpace).reverse)

/-- Model of Python `str.split(sep)` for a one-character separator (keeps
empty pieces, as Python does). -/
def splitOnCharGo (sep : Char) : List Char → List Char → List (List Char)
  | [], acc => [acc.reverse]
  | c :: rest, acc =>
    if c = sep then acc.reverse :: splitOnCharGo sep rest []
    else splitOnCharGo sep rest (c :: acc)

/-- Model of Python `sep.join(items)`. -/
def joinSep (sep : String) : List String → String
  | [] => ""
  | [s] => s
  | s :: rest => s ++ sep ++ joinSep sep rest

/-- Model of `[x.strip() for x in raw.split(",") if x.strip()]`. -/
def splitCommaTrim (raw : String) : List String :=
  (((splitOnCharGo ',' raw.data []).map (fun l => pyStrip (String.mk l))).filter
    (fun s => s ≠ ""))

/-- The decimal digit character for `d < 10`. -/
def digitChar (d : Nat) : Char := Char.ofNat (48 + d)

/-- Fuelled decimal rendering: digits of `n`, most significant first,
accumulated in `acc`.  Fuel `n + 1` is always enough. -/
def natDigitsGo : Nat → Nat → List Char → List Char
  | 0, _, acc => acc
  | fuel + 1, n, acc => if n = 0 then acc else natDigitsGo fuel (n / 10) (digitChar (n % 10) :: acc)

/-- Decimal rendering of a natural number, modelling Python `str(n)` /
`"%d" % n` for the non-negative indices the scripts format. -/
def natDecimal (n : Nat) : String :=
  if n = 0 then "0" else String.mk (natDigitsGo (n + 1) n [])

/-- Zero-padding to width `w`, modelling a Python format such as `"%05d"`. -/
def padNum (w : Nat) (n : Nat) : String :=
  String.mk (List.replicate (w - (natDecimal n).length) '0') ++ natDecimal n

/-- The character class `[A-Za-z0-9._-]` used by both id sanitizers
(`_safe_id` in the builder, `_safe_sample_id` in the preparer). -/
def isSafeChar (c : Char) : Bool :=
  ('A' ≤ c && c ≤ 'Z') || ('a' ≤ c && c ≤ 'z') || ('0' ≤ c && c ≤ '9') ||
    c = '.' || c = '_' || c = '-'

/-- Model of `re.sub(r"[^A-Za-z0-9._-]+", "_", value)`: each maximal run of
characters outside the class is replaced by a single underscore.  The flag
records whether the previous character was part of such a run. -/
def sanitizeGo : Bool → List Char → List Char
  | _, [] => []
  | prevBad, c :: rest =>
    if isSafeChar c then c :: sanitizeGo false rest
    else if prevBad then sanitizeGo true rest
    else '_' :: sanitizeGo true rest

/-- Python's substring test `needle in hay`. -/
def containsSub (hay needle : List Char) : Bool :=
  match hay with
  | [] => needle.isEmpty
  | c :: rest => needle.isPrefixOf (c :: rest) || containsSub rest needle

/-- The final path component: the characters after the last `/`.  Models
`pathlib.PurePath.name` for the plain file names these scripts handle. -/
def pathName (s : String) : String :=
  String.mk ((s.data.reverse.takeWhile (fun c => c ≠ '/')).reverse)

/-- Model of `pathlib.PurePath.stem`: the name without its suffix, where the
suffix starts at the last dot provided that dot is neither the first nor the
last character of the name. -/
def pathStem (s : String) : String :=
  let n := (pathName s).data
  let tailNoDot := n.reverse.takeWhile (fun c => c ≠ '.')
  if tailNoDot.length = n.length then String.mk n
  else
    let i := n.length - tailNoDot.length - 1
    if 0 < i ∧ i < n.length - 1 then String.mk (n.take i) else String.mk n

/-- Model of `pathlib.PurePath.suffix` (see `pathStem`). -/
def pathSuffix (s : String) : String :=
  let n := (pathName s).data
  let tailNoDot := n.reverse.takeWhile (fun c => c ≠ '.')
  if tailNoDot.length = n.length then ""
  else
    let i := n.length - tailNoDot.length - 1
    if 0 < i ∧ i < n.length - 1 then String.mk (n.drop i) else ""

end Util

namespace PhysIQ

/-- `NOISE_TOKENS` from `build_physics_iq_manifest.py`. -/
def NOISE_TOKENS : List String :=
  ["video", "videos", "mask", "masks", "full", "split", "switch", "frames",
   "fullvideos", "splitvideos", "videomasks", "switchframes", "conditioning",
   "testing", "real", "fps", "8fps", "16fps", "24fps", "30fps", "take", "1", "2"]

/-- `_safe_id` from `build_physics_iq_manifest.py`. -/
def _safe_id (value : String) (idx : Nat) : String :=
  let v0 := Util.pyStrip value
  let v1 := if v0 = "" then "physics_" ++ Util.padNum 6 idx else v0
  let v2 := String.mk (Util.sanitizeGo false v1.data)
  if v2 = "" then "physics_" ++ Util.padNum 6 idx else v2

/-- Separator characters of the noise-marker regexes (`[-_]`). -/
def isSepChar (c : Char) : Bool := c = '_' || c = '-'

/-- Lower-case ASCII letters and digits: the character class `[a-z0-9]` of the
token-splitting regex in `_normalize_name`. -/
def isAlnumLower (c : Char) : Bool :=
  ('a' ≤ c && c ≤ 'z') || ('0' ≤ c && c ≤ '9')

/-- Literal matching: `matchLit w cs = some r` iff `cs = w ++ r`. -/
def matchLit : List Char → List Char → Option (List Char)
  | [], cs => some cs
  | _ :: _, [] => none
  | l :: ls, c :: cs => if c = l then matchLit ls cs else none

/-- `[-_]?w`: an optional separator followed by the literal `w`.  The greedy
optional separator never needs backtracking because none of the words starts
with a separator character. -/
def matchSepWord (w : List Char) : List Char → Option (List Char)
  | [] => none
  | c :: rest => if isSepChar c then matchLit w rest else matchLit w (c :: rest)

/-- The literal class `[12]` of the take-marker regex. -/
def digit12 : List Char → Option (List Char)
  | [] => none
  | c :: rest => if c = '1' || c = '2' then some rest else none

/-- Body of the first noise regex:
`full[-_]?videos|split[-_]?videos|video[-_]?masks|switch[-_]?frames`
(the alternatives are mutually exclusive at any position). -/
def bodyP1 (cs : List Char) : Option (List Char) :=
  ((matchLit "full".data cs).bind (matchSepWord "videos".data)) <|>
  ((matchLit "split".data cs).bind (matchSepWord "videos".data)) <|>
  ((matchLit "video".data cs).bind (matchSepWord "masks".data)) <|>
  ((matchLit "switch".data cs).bind (matchSepWord "frames".data))

/-- Body of the second noise regex: `(?:8|16|24|30)fps`. -/
def bodyP2 (cs : List Char) : Option (List Char) :=
  ((matchLit "8".data cs) <|> (matchLit "16".data cs) <|>
   (matchLit "24".data cs) <|> (matchLit "30".data cs)).bind (matchLit "fps".data)

/-- Body of the third noise regex: `take[-_]?[12]`. -/
def bodyP3 (cs : List Char) : Option (List Char) :=
  (matchLit "take".data cs).bind (fun r =>
    match r with
    | [] => none
    | c :: rest => if isSepChar c then digit12 rest else digit12 (c :: rest))

/-- The three noise-marker regexes applied in `_normalize_name`. -/
inductive Pat
  | p1
  | p2
  | p3
deriving DecidableEq

def bodyOf : Pat → List Char → Option (List Char)
  | .p1 => bodyP1
  | .p2 => bodyP2
  | .p3 => bodyP3

/-- Trailing context `(?:[_-]|$)`: consume one separator, or succeed at the
end of the string. -/
def tailSep : List Char → Option (List Char)
  | [] => some []
  | c :: rest => if isSepChar c then some rest else none

/-- Try the full pattern `(?:^|[_-]) body (?:[_-]|$)` at the current suffix.
`first` is true exactly at position 0, where the `^` alternative applies
(tried before the `[_-]` alternative, as `re` does). -/
def patMatch (p : Pat) (first : Bool) (cs : List Char) : Option (List Char) :=
  match (if first then (bodyOf p cs).bind tailSep else none) with
  | some r => some r
  | none =>
    match cs with
    | [] => none
    | c :: rest => if isSepChar c then (bodyOf p rest).bind tailSep else none

/-- Length (in characters) consumed by a match of pattern `p` at the current
position, if any. -/
def patMatchLen (p : Pat) (first : Bool) (cs : List Char) : Option Nat :=
  (patMatch p first cs).map (fun r => cs.length - r.length)

/-- The scanning engine of `re.sub(pattern, "_", s)`: at each position either
replace a match by `_` and resume after it, or copy one character.  `skip`
counts characters of the current match still to be dropped (this keeps the
recursion structural). -/
def subGo (p : Pat) : Bool → Nat → List Char → List Char
  | _, _, [] => []
  | _, k + 1, _ :: rest => subGo p false k rest
  | first, 0, c :: rest =>
    match patMatchLen p first (c :: rest) with
    | some n => '_' :: subGo p false (n - 1) rest
    | none => c :: subGo p false 0 rest

/-- `re.sub(pattern_p, "_", s)` for the three noise regexes. -/
def applySub (p : Pat) (cs : List Char) : List Char :=
  subGo p true 0 cs

/-- `re.split(r"[^a-z0-9]+", s)` restricted to its non-empty pieces: the
maximal runs of `[a-z0-9]` characters, in order.  (The empty boundary pieces
`re.split` also returns are dropped by the `if p` filter in the caller.) -/
def splitNA : List Char → List Char → List (List Char)
  | [], acc => if acc.isEmpty then [] else [acc.reverse]
  | c :: rest, acc =>
    if isAlnumLower c then splitNA rest (c :: acc)
    else if acc.isEmpty then splitNA rest [] else acc.reverse :: splitNA rest []

/-- `_normalize_name` from `build_physics_iq_manifest.py`. -/
def _normalize_name (name : String) : String :=
  let stem := Util.strLower (Util.pathStem name)
  let s1 := applySub .p1 stem.data
  let s2 := applySub .p2 s1
  let s3 := applySub .p3 s2
  let parts := splitNA s3 []
  String.mk
    (List.flatten (parts.filter (fun p => !p.isEmpty && !(NOISE_TOKENS.contains (String.mk p)))))

/-- Rank tuples compared lexicographically, as Python compares the 4-tuples
returned by `_rank_match`. -/
def rankLtb (a b : Nat × Nat × Nat × Nat) : Bool :=
  decide (a.1 < b.1) ||
    (decide (a.1 = b.1) &&
      (decide (a.2.1 < b.2.1) ||
        (decide (a.2.1 = b.2.1) &&
          (decide (a.2.2.1 < b.2.2.1) ||
            (decide (a.2.2.1 = b.2.2.1) && decide (a.2.2.2 < b.2.2.2))))))

/-- The position loop of `_rank_match` over `prefer_substrings`: index of the
first non-empty preferred substring contained in `s`, else `total`. -/
def prefRankGo (s : List Char) (total : Nat) : Nat → List String → Nat
  | _, [] => total
  | i, sub :: rest =>
    if !sub.isEmpty && Util.containsSub s (Util.strLower sub).data then i
    else prefRankGo s total (i + 1) rest

/-- `len(path.parts)` for a POSIX path string. -/
def partsCount (p : String) : Nat :=
  (if p.data.head? = some '/' then 1 else 0) +
    ((Util.splitOnCharGo '/' p.data []).filter (fun l => !l.isEmpty)).length

/-- `_rank_match` from `build_physics_iq_manifest.py`. -/
def _rank_match (path : String) (prefer : List String) (takeFilter : String) :
    Nat × Nat × Nat × Nat :=
  let s := Util.strLower path
  let takeRank :=
    if !takeFilter.isEmpty && Util.containsSub s.data (Util.strLower takeFilter).data then 0
    else 1
  (takeRank, prefRankGo s.data prefer.length 0 prefer, partsCount path, s.length)

/-- `_pick_best_match` from `build_physics_iq_manifest.py`.  Python computes
`sorted(matches, key=_rank_match)[0]`; since `sorted` is stable and ascending,
that is the first element whose rank is minimal, which is what the fold
computes. -/
def _pick_best_match (cands : List String) (prefer : List String) (takeFilter : String) :
    Option String :=
  match cands with
  | [] => none
  | m :: rest =>
    some (rest.foldl
      (fun best p =>
        if rankLtb (_rank_match p prefer takeFilter) (_rank_match best prefer takeFilter) then p
        else best)
      m)

/-- The `sample_id` emission steps of `main` (lines 263-272 of the builder):
given the already-emitted ids `seen` and the remaining rows as pairs
`(out_idx, raw_id)` (1-based loop index and the raw id string drawn from the
id/filename columns), produce the emitted ids in order. -/
def emitIdsGo : List String → List (Nat × String) → List String
  | _, [] => []
  | seen, (outIdx, rawId) :: rest =>
    let sid0 := _safe_id (if rawId = "" then "" else Util.pathStem rawId) outIdx
    let sid := if seen.contains sid0 then sid0 ++ "_" ++ Util.padNum 6 outIdx else sid0
    sid :: emitIdsGo (sid :: seen) rest

def emitIds (rows : List (Nat × String)) : List String :=
  emitIdsGo [] rows

/-- Checker for the amended collision claim: `true` iff at every collision the
suffixed id is itself fresh (not already emitted). -/
def appendsFreshGo : List String → List (Nat × String) → Bool
  | _, [] => true
  | seen, (outIdx, rawId) :: rest =>
    let sid0 := _safe_id (if rawId = "" then "" else Util.pathStem rawId) outIdx
    if seen.contains sid0 then
      let sid := sid0 ++ "_" ++ Util.padNum 6 outIdx
      if seen.contains sid then false else appendsFreshGo (sid :: seen) rest
    else appendsFreshGo (sid0 :: seen) rest

def appendsFresh (rows : List (Nat × String)) : Bool :=
  appendsFreshGo [] rows

end PhysIQ

namespace Subset

/-- `PERSPECTIVES` from `subset_layout_manifests.py`. -/
def PERSPECTIVES : List String := ["left", "center", "right"]

/-- `LEADING_INDEX_RE.sub("", s)` for `LEADING_INDEX_RE = ^\d+_`: strip one
leading run of digits followed by an underscore, if present. -/
def stripLeadingIndex (cs : List Char) : List Char :=
  let ds := cs.takeWhile Char.isDigit
  if ds.isEmpty then cs
  else
    match cs.drop ds.length with
    | '_' :: rest => rest
    | _ => cs

/-- A match of `PERSPECTIVE_RE = _perspective-(left|center|right)_` at the
current position: the captured label and the matched length.  The three
alternatives are mutually exclusive, so testing them in order is faithful. -/
def perspMatchAt (cs : List Char) : Option (String × Nat) :=
  if "_perspective-left_".data.isPrefixOf cs then some ("left", 18)
  else if "_perspective-center_".data.isPrefixOf cs then some ("center", 20)
  else if "_perspective-right_".data.isPrefixOf cs then some ("right", 19)
  else none

/-- `PERSPECTIVE_RE.search`: label of the leftmost match, if any. -/
def perspSearch : List Char → Option String
  | [] => none
  | c :: rest =>
    match perspMatchAt (c :: rest) with
    | some (p, _) => some p
    | none => perspSearch rest

/-- `PERSPECTIVE_RE.sub("_", s)`: replace every (non-overlapping, leftmost
first) match by a single underscore.  `skip` counts characters of the current
match still to drop, keeping the recursion structural. -/
def perspSubGo : Nat → List Char → List Char
  | _, [] => []
  | k + 1, _ :: rest => perspSubGo k rest
  | 0, c :: rest =>
    match perspMatchAt (c :: rest) with
    | some (_, n) => '_' :: perspSubGo (n - 1) rest
    | none => c :: perspSubGo 0 rest

/-- `_sample_group` from `subset_layout_manifests.py`: group key and optional
perspective label of a sample id. -/
def _sample_group (sample_id : String) : String × Option String :=
  let normalized := stripLeadingIndex sample_id.data
  match perspSearch normalized with
  | none => (String.mk normalized, none)
  | some p => (String.mk (perspSubGo 0 normalized), some p)

/-- The inner dictionaries of `grouped`: perspective label (or the literal
`"__single__"`) mapped to a sample id. -/
abbrev Bucket := List (String × String)

/-- `grouped` together with `group_order`: an insertion-ordered association
list from group key to bucket. -/
abbrev Groups := List (String × Bucket)

/-- The bucket key used by `_select_ids` for a sample: its perspective label,
or `"__single__"` for a non-triplet sample. -/
def bucketKey : Option String → String
  | none => "__single__"
  | some p => p

/-- Insert one sample into `grouped`, preserving first-seen group order and
overwriting the bucket slot in place (Python dict assignment). -/
def insertSampleG (gkey bkey sid : String) : Groups → Groups
  | [] => [(gkey, [(bkey, sid)])]
  | (g, b) :: rest =>
    if g = gkey then (g, Util.updateA bkey sid b) :: rest
    else (g, b) :: insertSampleG gkey bkey sid rest

/-- The grouping loop of `_select_ids`. -/
def buildGroups : List String → Groups → Groups
  | [], gs => gs
  | sid :: rest, gs =>
    let gp := _sample_group sid
    buildGroups rest (insertSampleG gp.1 (bucketKey gp.2) sid gs)

/-- `sorted(bucket.keys())[0]`: the lexicographically smallest key. -/
def minKeyOf : Bucket → Option String
  | [] => none
  | (k, _) :: rest => some (rest.foldl (fun m kv => if kv.1 < m then kv.1 else m) k)

/-- The preference loop of `_select_ids`. -/
def prefChoose : List String → Bucket → Option String
  | [], _ => none
  | p :: ps, b =>
    match Util.lookupA p b with
    | some sid => some sid
    | none => prefChoose ps b

/-- The per-group choice of `_select_ids`: the singleton sample if present,
else the first preferred perspective present, else the sample at the
lexicographically smallest key (deterministic fallback). -/
def chooseFromBucket (preference : List String) (b : Bucket) : Option String :=
  match Util.lookupA "__single__" b with
  | some sid => some sid
  | none =>
    match prefChoose preference b with
    | some sid => some sid
    | none =>
      match minKeyOf b with
      | none => none
      | some k => Util.lookupA k b

/-- The selection loop of `_select_ids`: `count` is the number of ids already
selected; the loop breaks once the cap is reached (after appending). -/
def selectGo (preference : List String) (maxPer : Int) : Nat → Groups → List String
  | _, [] => []
  | count, (_, b) :: rest =>
    match chooseFromBucket preference b with
    | none => selectGo preference maxPer count rest
    | some sid =>
      if maxPer > 0 ∧ ((count : Int) + 1 ≥ maxPer) then [sid]
      else sid :: selectGo preference maxPer (count + 1) rest

/-- `_select_ids` from `subset_layout_manifests.py`. -/
def _select_ids (orderedIds : List String) (maxPer : Int) (preference : List String) :
    List String :=
  selectGo preference maxPer 0 (buildGroups orderedIds [])

/-- A JSON-line object with string fields, as the task manifests hold. -/
abbrev Payload := List (String × String)

/-- `str(payload.get("sample_id", "")).strip()`. -/
def sidOf (p : Payload) : String := Util.pyStrip ((Util.lookupA "sample_id" p).getD "")

/-- One manifest file together with its (optional) backup file.  The content
is the list of JSON-object lines; its serialization is injective, so equality
of these lists models byte-identity of canonically serialized manifests. -/
structure MFile where
  content : List Payload
  backup : Option (List Payload)
deriving DecidableEq

/-- A manifest location: `(model, dataset, task)`. -/
abbrev SKey := String × String × String

/-- The manifests of the layout under the run root, keyed by location; a key
that is absent models a missing manifest file. -/
abbrev Layout := List (SKey × MFile)

/-- `_read_jsonl`: the rows of a manifest, skipping rows whose stripped
`sample_id` is empty; each row is its id paired with its payload. -/
def _read_jsonl (content : List Payload) : List (String × Payload) :=
  content.filterMap (fun p => let s := sidOf p; if s = "" then none else some (s, p))

/-- Observable filesystem actions of the subsetter. -/
inductive SubEff
  | statRunRoot (path : String)
  | statManifest (key : SKey)
  | readManifest (key : SKey)
  | writeBackup (key : SKey)
  | writeManifest (key : SKey)
deriving DecidableEq

/-- The value-level effect of one non-dry-run visit to a present manifest:
content is filtered to the selected ids (in row order), and the backup is
written from the parsed rows only if it does not exist yet. -/
def applyMF (selected : List String) (mf : MFile) : MFile :=
  { content := ((_read_jsonl mf.content).filter (fun r => selected.contains r.1)).map
      (fun r => r.2),
    backup :=
      match mf.backup with
      | none => some ((_read_jsonl mf.content).map (fun r => r.2))
      | some b => some b }

/-- One iteration of the model/task loop of `main`: skip a missing manifest,
otherwise read it and (unless dry-run) back it up and rewrite it. -/
def applyOne (selected : List String) (dryRun : Bool) (k : SKey) (st : Layout) :
    Layout × List SubEff :=
  match Util.lookupA k st with
  | none => (st, [SubEff.statManifest k])
  | some mf =>
    if dryRun then (st, [SubEff.statManifest k, SubEff.readManifest k])
    else
      (Util.updateA k (applyMF selected mf) st,
       [SubEff.statManifest k, SubEff.readManifest k] ++
         (match mf.backup with
          | none => [SubEff.writeBackup k]
          | some _ => []) ++
         [SubEff.writeManifest k])

/-- The model/task double loop of `main` for one dataset. -/
def applyPairs (selected : List String) (dryRun : Bool) : List SKey → Layout →
    Layout × List SubEff
  | [], st => (st, [])
  | k :: rest, st =>
    let step := applyOne selected dryRun k st
    let next := applyPairs selected dryRun rest step.1
    (next.1, step.2 ++ next.2)

/-- The `(model, dataset, task)` keys visited for one dataset, in loop order. -/
def pairsFor (models tasks : List String) (dataset : String) : List SKey :=
  models.flatMap (fun m => tasks.map (fun t => (m, dataset, t)))

/-- Selection for one dataset from the reference manifest content. -/
def selectedFor (maxPer : Int) (preference : List String) (refContent : List Payload) :
    List String :=
  _select_ids ((_read_jsonl refContent).map (fun r => r.1)) maxPer preference

/-- One iteration of the dataset loop of `main`. -/
def runDataset (refModel refTask : String) (models tasks : List String) (maxPer : Int)
    (preference : List String) (dryRun : Bool) (dataset : String) (st : Layout) :
    List SubEff × Except String Layout :=
  let refKey : SKey := (refModel, dataset, refTask)
  match Util.lookupA refKey st with
  | none =>
    ([SubEff.statManifest refKey],
     .error ("Reference manifest not found for dataset " ++ dataset))
  | some mf =>
    let selected := selectedFor maxPer preference mf.content
    let res := applyPairs selected dryRun (pairsFor models tasks dataset) st
    ([SubEff.statManifest refKey, SubEff.readManifest refKey] ++ res.2, .ok res.1)

/-- The dataset loop of `main` (errors abort the run). -/
def runDatasets (refModel refTask : String) (models tasks : List String) (maxPer : Int)
    (preference : List String) (dryRun : Bool) : List String → Layout →
    List SubEff × Except String Layout
  | [], st => ([], .ok st)
  | d :: rest, st =>
    let res := runDataset refModel refTask models tasks maxPer preference dryRun d st
    match res.2 with
    | .error e => (res.1, .error e)
    | .ok st' =>
      let res2 := runDatasets refModel refTask models tasks maxPer preference dryRun rest st'
      (res.1 ++ res2.1, res2.2)

/-- The command-line arguments of `subset_layout_manifests.py` that the model
depends on (the backup suffix only names the backup file, which the `MFile`
state tracks directly). -/
structure SubArgs where
  runRoot : String
  datasets : String
  models : String
  tasks : String
  maxPerDataset : Int
  perspectivePreference : String
  referenceModel : String
  referenceTask : String
  dryRun : Bool

/-- The `ValueError` message naming the invalid perspective tokens. -/
def invalidPerspMsg (bad : List String) : String :=
  "Invalid perspective(s): " ++ Util.joinSep ", " bad ++ ". Allowed: left, center, right"

/-- `main` of `subset_layout_manifests.py`: run-root check, argument splitting,
perspective validation, then the dataset loop over the layout state. -/
def subMain (runRootIsDir : Bool) (args : SubArgs) (st : Layout) :
    List SubEff × Except String Layout :=
  if ¬ runRootIsDir then
    ([SubEff.statRunRoot args.runRoot], .error ("RUN_ROOT not found: " ++ args.runRoot))
  else
    let datasets := Util.splitCommaTrim args.datasets
    let models := Util.splitCommaTrim args.models
    let tasks := Util.splitCommaTrim args.tasks
    let preference := Util.splitCommaTrim args.perspectivePreference
    let bad := preference.filter (fun p => !PERSPECTIVES.contains p)
    if bad ≠ [] then
      ([SubEff.statRunRoot args.runRoot], .error (invalidPerspMsg bad))
    else if datasets = [] ∨ models = [] ∨ tasks = [] then
      ([SubEff.statRunRoot args.runRoot], .error "datasets/models/tasks must be non-empty.")
    else
      let res := runDatasets args.referenceModel args.referenceTask models tasks
        args.maxPerDataset preference args.dryRun datasets st
      (SubEff.statRunRoot args.runRoot :: res.1, res.2)

end Subset

namespace Prep

def DEFAULT_TASKS : List String := ["t2v", "i2v"]

def ID_KEYS : List String := ["sample_id", "id", "uid", "name"]

def PROMPT_KEYS : List String := ["prompt", "text_prompt", "caption"]

def GT_KEYS : List String :=
  ["ground_truth_video", "ground_truth", "gt_video", "video_path", "video"]

def IMAGE_KEYS : List String :=
  ["i2v_image", "image", "image_path", "first_frame", "first_frame_path"]

/-- A manifest row as `_read_manifest` returns it: a string-keyed record with
all values coerced to strings. -/
abbrev Row := List (String × String)

/-- `_pick_value` from `prepare_inference_layout.py`: the first present,
non-blank value among the candidate keys, stripped. -/
def _pick_value (record : Row) (keys : List String) : Option String :=
  match keys with
  | [] => none
  | k :: rest =>
    match Util.lookupA k record with
    | some v => if Util.pyStrip v ≠ "" then some (Util.pyStrip v) else _pick_value record rest
    | none => _pick_value record rest

/-- `_safe_sample_id` from `prepare_inference_layout.py`. -/
def _safe_sample_id (rawValue : String) (rowIndex : Nat) : String :=
  let v0 := Util.pyStrip rawValue
  let v1 := if v0 = "" then "sample_" ++ Util.padNum 5 rowIndex else v0
  let v2 := String.mk (Util.sanitizeGo false v1.data)
  if v2 = "" then "sample_" ++ Util.padNum 5 rowIndex else v2

structure SampleRecord where
  sample_id : String
  prompt : String
  gt_video_src : String
  image_src : Option String
  row_index : Nat
deriving DecidableEq

structure SampleAssets where
  sample_id : String
  prompt_text : String
  prompt_path : String
  gt_video_path : String
  image_path : Option String
  metadata_path : String
deriving DecidableEq

/-- `Path.parent` for a POSIX path string. -/
def parentDir (p : String) : String :=
  match p.data.reverse.dropWhile (fun c => c ≠ '/') with
  | '/' :: rest => if rest.isEmpty then "/" else String.mk rest.reverse
  | _ => "."

/-- The environment of one preparer run: filesystem oracles, the OS path
resolution used by `_resolve_path` (raw value and manifest directory to an
absolute path), the resolution of command-line path arguments, and the parse
result of `_read_manifest` on the manifest file. -/
structure PrepEnv where
  isFile : String → Bool
  isDir : String → Bool
  ffmpegOk : String → Bool
  resolveArg : String → String
  resolvePath : String → String → String
  readRows : Except String (List Row)

/-- The `sample_id` computed for a row (first two statements of the
`_normalize_rows` loop body). -/
def rowSampleId (row : Row) (index : Nat) : String :=
  _safe_sample_id ((_pick_value row ID_KEYS).getD "") index

/-- The rest of the `_normalize_rows` loop body after the duplicate check:
prompt, ground-truth and image resolution for one row. -/
def normalizeRowRest (env : PrepEnv) (manifestDir : String) (index : Nat) (row : Row)
    (sid : String) : Except String SampleRecord :=
  match _pick_value row PROMPT_KEYS with
  | none => .error ("Row " ++ Util.natDecimal index ++ ": missing prompt field")
  | some prompt =>
    match _pick_value row GT_KEYS with
    | none => .error ("Row " ++ Util.natDecimal index ++ ": missing ground-truth video field")
    | some gtRaw =>
      let gtPath := env.resolvePath gtRaw manifestDir
      if !env.isFile gtPath then
        .error ("Row " ++ Util.natDecimal index ++ ": ground-truth video not found: " ++ gtPath)
      else
        match _pick_value row IMAGE_KEYS with
        | none => .ok ⟨sid, prompt, gtPath, none, index⟩
        | some imgRaw =>
          let imgPath := env.resolvePath imgRaw manifestDir
          if !env.isFile imgPath then
            .error ("Row " ++ Util.natDecimal index ++ ": image not found: " ++ imgPath)
          else .ok ⟨sid, prompt, gtPath, some imgPath, index⟩

/-- The row loop of `_normalize_rows`: 1-based row index, the `seen` map from
sample id to the row index that introduced it. -/
def normalizeGo (env : PrepEnv) (manifestDir : String) :
    Nat → List (String × Nat) → List Row → Except String (List SampleRecord)
  | _, _, [] => .ok []
  | index, seen, row :: rest =>
    let sid := rowSampleId row index
    match Util.lookupA sid seen with
    | some _ => .error ("Duplicate sample_id " ++ sid)
    | none =>
      match normalizeRowRest env manifestDir index row sid with
      | .error e => .error e
      | .ok rec =>
        match normalizeGo env manifestDir (index + 1) ((sid, index) :: seen) rest with
        | .error e => .error e
        | .ok recs => .ok (rec :: recs)

/-- `_normalize_rows` from `prepare_inference_layout.py`. -/
def _normalize_rows (env : PrepEnv) (manifestDir : String) (rows : List Row) :
    Except String (List SampleRecord) :=
  normalizeGo env manifestDir 1 [] rows

/-- The materialization modes admitted by the `--materialize-mode` argparse
choices (any other string is rejected before `main` runs). -/
inductive MatMode
  | symlink
  | hardlink
  | copy
deriving DecidableEq

/-- Observable filesystem actions of the preparer. -/
inductive PrepEffect
  | statPath (p : String)
  | mkdirAll (p : String)
  | readManifestFile (p : String)
  | placeFile (src dst : String)
  | writeTextFile (dst : String)
  | writeJsonFile (dst : String)
  | runFfmpeg (video dst : String)
deriving DecidableEq

/-- `_materialize_file`: ensure the parent directory, refuse to overwrite a
directory, then place the file (by link or copy, uniformly per `mode`). -/
def _materialize_file (env : PrepEnv) (src dst : String) (_ : MatMode) :
    List PrepEffect × Except String Unit :=
  if env.isDir dst then
    ([PrepEffect.mkdirAll (parentDir dst)], .error ("Refusing to overwrite directory: " ++ dst))
  else ([PrepEffect.mkdirAll (parentDir dst), PrepEffect.placeFile src dst], .ok ())

/-- The body of the `_prepare_shared_assets` loop for one sample. -/
def prepareOneShared (env : PrepEnv) (sharedRoot : String) (mode : MatMode)
    (extract strict : Bool) (rec : SampleRecord) : List PrepEffect × Except String SampleAssets :=
  let sampleRoot := sharedRoot ++ "/" ++ rec.sample_id
  let e0 := [PrepEffect.mkdirAll sampleRoot]
  let gtSuffix := Util.pathSuffix rec.gt_video_src
  let gtExt := if gtSuffix = "" then ".mp4" else gtSuffix
  let gtDst := sampleRoot ++ "/ground_truth" ++ gtExt
  let m1 := _materialize_file env rec.gt_video_src gtDst mode
  match m1.2 with
  | .error e => (e0 ++ m1.1, .error e)
  | .ok _ =>
    let promptPath := sampleRoot ++ "/prompt.txt"
    let e1 := e0 ++ m1.1 ++ [PrepEffect.mkdirAll sampleRoot, PrepEffect.writeTextFile promptPath]
    let imgStep : List PrepEffect × Except String (Option String) :=
      match rec.image_src with
      | some imgSrc =>
        let imgSuffix := Util.pathSuffix imgSrc
        let imgExt := if imgSuffix = "" then ".png" else imgSuffix
        let imgDst := sampleRoot ++ "/input_image" ++ imgExt
        let m2 := _materialize_file env imgSrc imgDst mode
        (m2.1, m2.2.map (fun _ => some imgDst))
      | none =>
        if extract then
          let imgDst := sampleRoot ++ "/input_image.png"
          if !env.ffmpegOk gtDst then
            ([PrepEffect.mkdirAll sampleRoot, PrepEffect.runFfmpeg gtDst imgDst],
             .error ("Failed to extract first frame with ffmpeg from " ++ gtDst))
          else
            ([PrepEffect.mkdirAll sampleRoot, PrepEffect.runFfmpeg gtDst imgDst], .ok (some imgDst))
        else if strict then
          ([], .error ("Sample " ++ rec.sample_id ++
            " has no image and first-frame extraction is disabled."))
        else ([], .ok none)
    match imgStep.2 with
    | .error e => (e1 ++ imgStep.1, .error e)
    | .ok imageDst =>
      let metadataPath := sampleRoot ++ "/sample.json"
      (e1 ++ imgStep.1 ++ [PrepEffect.mkdirAll sampleRoot, PrepEffect.writeJsonFile metadataPath],
       .ok ⟨rec.sample_id, rec.prompt, promptPath, gtDst, imageDst, metadataPath⟩)

/-- The sample loop of `_prepare_shared_assets`. -/
def prepareSharedGo (env : PrepEnv) (sharedRoot : String) (mode : MatMode)
    (extract strict : Bool) : List SampleRecord → List PrepEffect × Except String (List SampleAssets)
  | [] => ([], .ok [])
  | rec :: rest =>
    let one := prepareOneShared env sharedRoot mode extract strict rec
    match one.2 with
    | .error e => (one.1, .error e)
    | .ok a =>
      let more := prepareSharedGo env sharedRoot mode extract strict rest
      (one.1 ++ more.1, more.2.map (fun l => a :: l))

/-- `_prepare_shared_assets` from `prepare_inference_layout.py`. -/
def _prepare_shared_assets (env : PrepEnv) (runRoot datasetName : String) (mode : MatMode)
    (extract strict : Bool) (records : List SampleRecord) :
    List PrepEffect × Except String (List SampleAssets) :=
  prepareSharedGo env (runRoot ++ "/datasets/" ++ datasetName ++ "/samples") mode extract strict
    records

/-- The per-sample body of the `_build_model_task_layout` loop (prompt and
ground-truth placement, plus the i2v image placement or skip). -/
def buildTaskSample (env : PrepEnv) (mode : MatMode) (task promptDir gtDir imageDir : String)
    (sample : SampleAssets) : List PrepEffect × Except String Unit :=
  let promptDst := promptDir ++ "/" ++ sample.sample_id ++ ".txt"
  let m1 := _materialize_file env sample.prompt_path promptDst mode
  match m1.2 with
  | .error e => (m1.1, .error e)
  | .ok _ =>
    let gtDst := gtDir ++ "/" ++ sample.sample_id ++ Util.pathSuffix sample.gt_video_path
    let m2 := _materialize_file env sample.gt_video_path gtDst mode
    match m2.2 with
    | .error e => (m1.1 ++ m2.1, .error e)
    | .ok _ =>
      if task = "i2v" then
        match sample.image_path with
        | none => (m1.1 ++ m2.1, .ok ())
        | some img =>
          let imgDst := imageDir ++ "/" ++ sample.sample_id ++ Util.pathSuffix img
          let m3 := _materialize_file env img imgDst mode
          (m1.1 ++ m2.1 ++ m3.1, m3.2)
      else (m1.1 ++ m2.1, .ok ())

def buildTaskSamplesGo (env : PrepEnv) (mode : MatMode) (task promptDir gtDir imageDir : String) :
    List SampleAssets → List PrepEffect × Except String Unit
  | [] => ([], .ok ())
  | s :: rest =>
    let one := buildTaskSample env mode task promptDir gtDir imageDir s
    match one.2 with
    | .error e => (one.1, .error e)
    | .ok _ =>
      let more := buildTaskSamplesGo env mode task promptDir gtDir imageDir rest
      (one.1 ++ more.1, more.2)

/-- One `(model, task)` iteration of `_build_model_task_layout`: directory
creation, sample placement, the task manifest and the task summary. -/
def buildModelTask (env : PrepEnv) (mode : MatMode) (runRoot datasetName : String)
    (assets : List SampleAssets) (model task : String) : List PrepEffect × Except String Unit :=
  let taskRoot := runRoot ++ "/" ++ model ++ "/" ++ datasetName ++ "/" ++ task
  let inputsDir := taskRoot ++ "/inputs"
  let promptDir := inputsDir ++ "/prompts"
  let imageDir := inputsDir ++ "/images"
  let gtDir := taskRoot ++ "/ground_truth"
  let dirs := [PrepEffect.mkdirAll inputsDir, PrepEffect.mkdirAll (taskRoot ++ "/outputs"),
    PrepEffect.mkdirAll (taskRoot ++ "/logs"), PrepEffect.mkdirAll gtDir,
    PrepEffect.mkdirAll promptDir] ++
    (if task = "i2v" then [PrepEffect.mkdirAll imageDir] else [])
  let body := buildTaskSamplesGo env mode task promptDir gtDir imageDir assets
  match body.2 with
  | .error e => (dirs ++ body.1, .error e)
  | .ok _ =>
    (dirs ++ body.1 ++
      [PrepEffect.mkdirAll inputsDir, PrepEffect.writeTextFile (inputsDir ++ "/manifest.jsonl"),
       PrepEffect.mkdirAll taskRoot, PrepEffect.writeJsonFile (taskRoot ++ "/layout_summary.json")],
     .ok ())

def buildLayoutGo (env : PrepEnv) (mode : MatMode) (runRoot datasetName : String)
    (assets : List SampleAssets) : List (String × String) → List PrepEffect × Except String Unit
  | [] => ([], .ok ())
  | (m, t) :: rest =>
    let one := buildModelTask env mode runRoot datasetName assets m t
    match one.2 with
    | .error e => (one.1, .error e)
    | .ok _ =>
      let more := buildLayoutGo env mode runRoot datasetName assets rest
      (one.1 ++ more.1, more.2)

/-- `_build_model_task_layout` from `prepare_inference_layout.py`. -/
def _build_model_task_layout (env : PrepEnv) (mode : MatMode) (runRoot : String)
    (models tasks : List String) (datasetName : String) (assets : List SampleAssets) :
    List PrepEffect × Except String Unit :=
  buildLayoutGo env mode runRoot datasetName assets
    (models.flatMap (fun m => tasks.map (fun t => (m, t))))

/-- The command-line arguments of `prepare_inference_layout.py`. -/
structure PrepArgs where
  manifest : String
  runRoot : String
  datasetName : String
  models : String
  tasks : String
  materializeMode : MatMode
  noExtractFirstFrame : Bool
  allowMissingI2vImage : Bool

/-- `main` of `prepare_inference_layout.py` as a trace of filesystem effects
paired with its outcome (`.error` models the `ERROR: ...` exit path of the
top-level handler). -/
def prepMain (env : PrepEnv) (args : PrepArgs) : List PrepEffect × Except String Unit :=
  let manifestPath := env.resolveArg args.manifest
  let e0 := [PrepEffect.statPath manifestPath]
  if !env.isFile manifestPath then (e0, .error ("Manifest not found: " ++ manifestPath))
  else
    let manifestDir := parentDir manifestPath
    let runRoot := env.resolveArg args.runRoot
    let e1 := e0 ++ [PrepEffect.mkdirAll runRoot]
    let models := Util.splitCommaTrim args.models
    let tasks := Util.splitCommaTrim args.tasks
    if models = [] then (e1, .error "No models provided.")
    else if tasks = [] then (e1, .error "No tasks provided.")
    else
      let unsupported := tasks.filter (fun t => !DEFAULT_TASKS.contains t)
      if unsupported ≠ [] then
        (e1, .error ("Unsupported tasks: " ++ Util.joinSep ", " unsupported))
      else
        let e2 := e1 ++ [PrepEffect.readManifestFile manifestPath]
        match env.readRows with
        | .error e => (e2, .error e)
        | .ok rows =>
          match _normalize_rows env manifestDir rows with
          | .error e => (e2, .error e)
          | .ok records =>
            if records.isEmpty then (e2, .error "Manifest has no valid rows.")
            else
              let sh := _prepare_shared_assets env runRoot args.datasetName args.materializeMode
                (!args.noExtractFirstFrame) (!args.allowMissingI2vImage) records
              match sh.2 with
              | .error e => (e2 ++ sh.1, .error e)
              | .ok assets =>
                let bl := _build_model_task_layout env args.materializeMode runRoot models tasks
                  args.datasetName assets
                match bl.2 with
                | .error e => (e2 ++ sh.1 ++ bl.1, .error e)
                | .ok _ =>
                  (e2 ++ sh.1 ++ bl.1 ++
                    [PrepEffect.writeJsonFile (runRoot ++ "/layout_summary.json")], .ok ())

end Prep

namespace Gallery

/-- One task-manifest row as the gallery reads it (absent JSON fields are the
empty string, as `str(row.get(..., ""))` produces). -/
structure GRow where
  sample_id : String
  prompt : String
  ground_truth_video : String
  image_path : String
  output_video : String
deriving DecidableEq

/-- Filesystem oracle for `_maybe_pick_existing`: existence, `st_size` and
`st_mtime` (timestamps abstracted to integers compared by order). -/
structure FS where
  isFile : String → Bool
  size : String → Int
  mtime : String → Int

/-- The `Entry` dataclass of `serve_private_gallery.py` (outputs as an
insertion-ordered association list, compared by lookup as Python compares
dicts). -/
structure Entry where
  dataset : String
  task : String
  sample_id : String
  prompt : String
  ground_truth_video : Option String
  image_path : Option String
  outputs : List (String × Option String)
deriving DecidableEq

/-- `_maybe_pick_existing` from `serve_private_gallery.py`. -/
def _maybe_pick_existing (fs : FS) (current candidate : Option String) : Option String :=
  match candidate with
  | none => current
  | some c =>
    if !fs.isFile c || decide (fs.size c ≤ 0) then current
    else
      match current with
      | none => some c
      | some cur => if fs.mtime c > fs.mtime cur then some c else current

/-- Aggregation key `(dataset, task, sample_id)`. -/
abbrev GKey := String × String × String

/-- One discovered manifest row event: `(model, dataset, task, row)`. -/
abbrev Event := String × String × String × GRow

/-- The key an event contributes to, or `none` when its stripped sample id is
empty (such rows are skipped). -/
def keyOf (ev : Event) : Option GKey :=
  let sid := Util.pyStrip ev.2.2.2.sample_id
  if sid = "" then none else some (ev.2.1, ev.2.2.1, sid)

/-- The fresh entry created for a key, with one output slot per model. -/
def newEntry (models : List String) (k : GKey) : Entry :=
  { dataset := k.1, task := k.2.1, sample_id := k.2.2, prompt := "",
    ground_truth_video := none, image_path := none,
    outputs := models.map (fun m => (m, none)) }

/-- The field updates one row applies to its entry (body of the manifest-row
loop of `_collect_entries`). -/
def applyEv (fs : FS) (ev : Event) (e : Entry) : Entry :=
  let row := ev.2.2.2
  let e1 := if e.prompt = "" then { e with prompt := Util.pyStrip row.prompt } else e
  let gt := Util.pyStrip row.ground_truth_video
  let e2 :=
    if gt ≠ "" ∧ e1.ground_truth_video = none then { e1 with ground_truth_video := some gt }
    else e1
  let image := Util.pyStrip row.image_path
  let e3 :=
    if image ≠ "" ∧ e2.image_path = none then { e2 with image_path := some image } else e2
  let ov := Util.pyStrip row.output_video
  let candidate := if ov = "" then none else some ov
  { e3 with
    outputs := Util.updateA ev.1
      (_maybe_pick_existing fs ((Util.lookupA ev.1 e3.outputs).getD none) candidate)
      e3.outputs }

/-- One manifest-row step of `_collect_entries`. -/
def collectStep (fs : FS) (models : List String) (st : List (GKey × Entry)) (ev : Event) :
    List (GKey × Entry) :=
  match keyOf ev with
  | none => st
  | some k =>
    let entry :=
      match Util.lookupA k st with
      | some e => e
      | none => newEntry models k
    Util.updateA k (applyEv fs ev entry) st

/-- `_collect_entries` from `serve_private_gallery.py`, over the flattened
stream of discovered manifest rows. -/
def _collect_entries (fs : FS) (models : List String) (events : List Event) :
    List (GKey × Entry) :=
  events.foldl (collectStep fs models) []

/-- The row events contributed by one model's discovered manifests, each
manifest given as `(dataset, task, rows)`. -/
def modelEvents (model : String) (manifests : List (String × String × List GRow)) :
    List Event :=
  manifests.flatMap (fun m => m.2.2.map (fun r => (model, m.1, m.2.1, r)))

/-- Equality of entries as Python compares the `Entry` dataclass (the outputs
dict compared by lookup, insertion order ignored). -/
def entryEquiv (e1 e2 : Entry) : Prop :=
  e1.dataset = e2.dataset ∧ e1.task = e2.task ∧ e1.sample_id = e2.sample_id ∧
  e1.prompt = e2.prompt ∧ e1.ground_truth_video = e2.ground_truth_video ∧
  e1.image_path = e2.image_path ∧
  ∀ m, Util.lookupA m e1.outputs = Util.lookupA m e2.outputs

def optEntryEquiv : Option Entry → Option Entry → Prop
  | none, none => True
  | some a, some b => entryEquiv a b
  | _, _ => False

/-- Equality of merged entry maps as Python compares the `entries` dict. -/
def mapEquiv (s1 s2 : List (GKey × Entry)) : Prop :=
  ∀ k, optEntryEquiv (Util.lookupA k s1) (Util.lookupA k s2)

/-- Per-key analysis helpers for `_collect_entries` (used by the theorems
below to characterize the fold). -/
def promptOf (ev : Event) : String := Util.pyStrip ev.2.2.2.prompt

def gtOf (ev : Event) : String := Util.pyStrip ev.2.2.2.ground_truth_video

def imgOf (ev : Event) : String := Util.pyStrip ev.2.2.2.image_path

def candOf (ev : Event) : Option String :=
  if Util.pyStrip ev.2.2.2.output_video = "" then none
  else some (Util.pyStrip ev.2.2.2.output_video)

def modelOf (ev : Event) : String := ev.1

/-- The events of the stream contributing to key `k`. -/
def evsAt (k : GKey) (evs : List Event) : List Event :=
  evs.filter (fun e => keyOf e = some k)

/-- The evolution of the single entry at key `k` under a stream of events all
keyed at `k`. -/
def threadFold (fs : FS) (models : List String) (k : GKey) (cur : Option Entry)
    (evs : List Event) : Option Entry :=
  evs.foldl (fun c e => some (applyEv fs e (c.getD (newEntry models k)))) cur

/-- One first-writer-wins step on the prompt field. -/
def pstep (c p : String) : String := if c = "" then p else c

/-- One first-nonempty-wins step on an optional field (ground truth, image). -/
def gstep (c : Option String) (g : String) : Option String :=
  if g ≠ "" ∧ c = none then some g else c

end Gallery

namespace Util

theorem lookupA_mem {κ α : Type} [DecidableEq κ] {k : κ} {v : α} :
    ∀ {l : List (κ × α)}, lookupA k l = some v → (k, v) ∈ l := by
  intro l
  induction l with
  | nil => intro h; simp [lookupA] at h
  | cons p rest ih =>
    intro h
    obtain ⟨a, b⟩ := p
    simp only [lookupA] at h
    split at h
    · next hk =>
      cases h
      subst hk
      exact List.mem_cons_self _ _
    · exact List.mem_cons_of_mem _ (ih h)

theorem lookupA_updateA_self {κ α : Type} [DecidableEq κ] (k : κ) (v : α) :
    ∀ l : List (κ × α), lookupA k (updateA k v l) = some v := by
  intro l
  induction l with
  | nil => simp [lookupA, updateA]
  | cons p rest ih =>
    by_cases hk : p.1 = k
    · cases p; simp_all [lookupA, updateA]
    · cases p; simp_all [lookupA, updateA]

theorem lookupA_updateA_ne {κ α : Type} [DecidableEq κ] {k k' : κ} (hne : k ≠ k') (v : α) :
    ∀ l : List (κ × α), lookupA k' (updateA k v l) = lookupA k' l := by
  intro l
  induction l with
  | nil => simp [lookupA, updateA, hne]
  | cons p rest ih =>
    obtain ⟨a, b⟩ := p
    by_cases hk : a = k
    · subst hk
      simp [lookupA, updateA, hne]
    · simp [lookupA, updateA, hk, ih]

theorem contains_false_not_mem {α : Type} [BEq α] [LawfulBEq α] {a : α} {l : List α}
    (h : l.contains a = false) : ¬ a ∈ l := by
  intro hm
  have := List.elem_eq_true_of_mem hm
  rw [List.contains] at h
  simp_all

theorem contains_true_of_mem {α : Type} [BEq α] [LawfulBEq α] {a : α} {l : List α}
    (h : a ∈ l) : l.contains a = true := by
  have := List.elem_eq_true_of_mem h
  rw [List.contains]
  exact this

/-- Updating a key to the value it already holds leaves the list unchanged. -/
theorem updateA_self {κ α : Type} [DecidableEq κ] {k : κ} {v : α} :
    ∀ {l : List (κ × α)}, lookupA k l = some v → updateA k v l = l := by
  intro l
  induction l with
  | nil => intro h; simp [lookupA] at h
  | cons p rest ih =>
    intro h
    by_cases hk : p.1 = k
    · cases p
      simp_all [lookupA, updateA]
    · cases p
      simp only [lookupA, hk, if_neg] at h
      simp [updateA, hk, ih h]

end Util

namespace PhysIQ

theorem rankLtb_irrefl (a : Nat × Nat × Nat × Nat) : rankLtb a a = false := by
  obtain ⟨a1, a2, a3, a4⟩ := a
  simp [rankLtb]

theorem rankLtb_trans {a b c : Nat × Nat × Nat × Nat} (h1 : rankLtb a b = true)
    (h2 : rankLtb b c = true) : rankLtb a c = true := by
  obtain ⟨a1, a2, a3, a4⟩ := a
  obtain ⟨b1, b2, b3, b4⟩ := b
  obtain ⟨c1, c2, c3, c4⟩ := c
  simp only [rankLtb, Bool.or_eq_true, Bool.and_eq_true, decide_eq_true_eq] at *
  omega

theorem rankLtb_false_lt {a b c : Nat × Nat × Nat × Nat} (h1 : rankLtb b a = false)
    (h2 : rankLtb b c = true) : rankLtb a c = true := by
  obtain ⟨a1, a2, a3, a4⟩ := a
  obtain ⟨b1, b2, b3, b4⟩ := b
  obtain ⟨c1, c2, c3, c4⟩ := c
  simp only [rankLtb, Bool.or_eq_true, Bool.and_eq_true, decide_eq_true_eq,
    Bool.or_eq_false_iff, Bool.and_eq_false_iff, decide_eq_false_iff_not] at *
  omega

theorem rankLtb_false_total {a b : Nat × Nat × Nat × Nat} (h : rankLtb a b = false) :
    rankLtb b a = true ∨ b = a := by
  obtain ⟨a1, a2, a3, a4⟩ := a
  obtain ⟨b1, b2, b3, b4⟩ := b
  simp only [rankLtb, Bool.or_eq_true, Bool.and_eq_true, decide_eq_true_eq,
    Bool.or_eq_false_iff, Bool.and_eq_false_iff, decide_eq_false_iff_not,
    Prod.mk.injEq] at *
  omega

/-- The fold of `_pick_best_match` returns a member of `m :: rest` that no
member strictly out-ranks. -/
theorem foldlMin_spec (f : String → Nat × Nat × Nat × Nat) :
    ∀ (rest : List String) (m : String),
      (rest.foldl (fun best q => if rankLtb (f q) (f best) then q else best) m) ∈ m :: rest ∧
      ∀ x ∈ m :: rest,
        rankLtb (f x)
          (f (rest.foldl (fun best q => if rankLtb (f q) (f best) then q else best) m)) =
          false := by
  intro rest
  induction rest with
  | nil =>
    intro m
    refine ⟨List.mem_cons_self _ _, ?_⟩
    intro x hx
    simp only [List.foldl_nil, List.mem_singleton] at *
    subst hx
    exact rankLtb_irrefl _
  | cons p rest' ih =>
    intro m
    simp only [List.foldl_cons]
    cases hc : rankLtb (f p) (f m) with
    | true =>
      simp only [hc, if_true]
      obtain ⟨hmem, hle⟩ := ih p
      refine ⟨?_, ?_⟩
      · rcases List.mem_cons.mp hmem with h | h
        · rw [h]
          exact List.mem_cons_of_mem _ (List.mem_cons_self _ _)
        · exact List.mem_cons_of_mem _ (List.mem_cons_of_mem _ h)
      · intro x hx
        rcases List.mem_cons.mp hx with hxm | hx'
        · subst hxm
          cases hres : rankLtb (f x)
              (f (rest'.foldl (fun best q => if rankLtb (f q) (f best) then q else best) p)) with
          | false => rfl
          | true =>
            have h2 := rankLtb_trans hc hres
            have hp := hle p (List.mem_cons_self _ _)
            rw [hp] at h2
            exact absurd h2 (by simp)
        · exact hle x hx'
    | false =>
      simp only [hc, Bool.false_eq_true, if_false]
      obtain ⟨hmem, hle⟩ := ih m
      refine ⟨?_, ?_⟩
      · rcases List.mem_cons.mp hmem with h | h
        · rw [h]
          exact List.mem_cons_self _ _
        · exact List.mem_cons_of_mem _ (List.mem_cons_of_mem _ h)
      · intro x hx
        rcases List.mem_cons.mp hx with hxm | hx'
        · subst hxm
          exact hle x (List.mem_cons_self _ _)
        · rcases List.mem_cons.mp hx' with hxp | hx''
          · subst hxp
            cases hres : rankLtb (f x)
                (f (rest'.foldl (fun best q => if rankLtb (f q) (f best) then q else best) m)) with
            | false => rfl
            | true =>
              have h2 := rankLtb_false_lt hc hres
              have hm := hle m (List.mem_cons_self _ _)
              rw [hm] at h2
              exact absurd h2 (by simp)
          · exact hle x (List.mem_cons_of_mem _ hx'')

end PhysIQ

namespace Util

theorem sanitizeGo_safe : ∀ (b : Bool) (cs : List Char), ∀ c ∈ sanitizeGo b cs,
    isSafeChar c = true := by
  intro b cs
  induction cs generalizing b with
  | nil => intro c hc; simp [sanitizeGo] at hc
  | cons x rest ih =>
    intro c hc
    by_cases hx : isSafeChar x = true
    · simp only [sanitizeGo, hx, if_true] at hc
      rcases List.mem_cons.mp hc with h | h
      · subst h; exact hx
      · exact ih false c h
    · simp only [sanitizeGo, hx] at hc
      cases b with
      | true =>
        simp only [if_true] at hc
        exact ih true c hc
      | false =>
        simp only [Bool.false_eq_true, if_false] at hc
        rcases List.mem_cons.mp hc with h | h
        · subst h; decide
        · exact ih true c h

theorem sanitizeGo_ne_nil (x : Char) (rest : List Char) :
    sanitizeGo false (x :: rest) ≠ [] := by
  by_cases hx : isSafeChar x = true
  · simp [sanitizeGo, hx]
  · simp [sanitizeGo, hx]

theorem digitChar_safe (d : Nat) (h : d < 10) : isSafeChar (digitChar d) = true := by
  interval_cases d <;> decide

theorem natDigitsGo_safe : ∀ (fuel n : Nat) (acc : List Char),
    (∀ c ∈ acc, isSafeChar c = true) → ∀ c ∈ natDigitsGo fuel n acc, isSafeChar c = true := by
  intro fuel
  induction fuel with
  | zero => intro n acc hacc c hc; exact hacc c hc
  | succ fuel ih =>
    intro n acc hacc c hc
    by_cases hn : n = 0
    · simp only [natDigitsGo, hn, if_true] at hc
      exact hacc c hc
    · simp only [natDigitsGo, hn, if_false] at hc
      refine ih (n / 10) _ ?_ c hc
      intro c' hc'
      rcases List.mem_cons.mp hc' with h | h
      · subst h
        exact digitChar_safe _ (Nat.mod_lt _ (by norm_num))
      · exact hacc c' h

theorem natDecimal_safe (n : Nat) : ∀ c ∈ (natDecimal n).data, isSafeChar c = true := by
  intro c hc
  by_cases hn : n = 0
  · simp only [natDecimal, hn, if_true] at hc
    simp at hc
    subst hc
    decide
  · simp only [natDecimal, hn, if_false] at hc
    exact natDigitsGo_safe (n + 1) n [] (by simp) c hc

theorem padNum_safe (w n : Nat) : ∀ c ∈ (padNum w n).data, isSafeChar c = true := by
  intro c hc
  simp only [padNum, String.data_append] at hc
  rcases List.mem_append.mp hc with h | h
  · rw [List.eq_of_mem_replicate h]
    decide
  · exact natDecimal_safe n c h

end Util

namespace PhysIQ

/-- `_safe_id` always yields a non-empty string over `[A-Za-z0-9._-]`. -/
theorem _safe_id_charset (value : String) (idx : Nat) :
    (_safe_id value idx).data ≠ [] ∧
      ∀ c ∈ (_safe_id value idx).data, Util.isSafeChar c = true := by
  have hdefault : ("physics_" ++ Util.padNum 6 idx).data ≠ [] ∧
      ∀ c ∈ ("physics_" ++ Util.padNum 6 idx).data, Util.isSafeChar c = true := by
    constructor
    · simp [String.data_append]
    · intro c hc
      rw [String.data_append] at hc
      rcases List.mem_append.mp hc with h | h
      · fin_cases h <;> decide
      · exact Util.padNum_safe 6 idx c h
  have key : ∀ v1 : String,
      (if String.mk (Util.sanitizeGo false v1.data) = "" then "physics_" ++ Util.padNum 6 idx
        else String.mk (Util.sanitizeGo false v1.data)).data ≠ [] ∧
      ∀ c ∈ (if String.mk (Util.sanitizeGo false v1.data) = "" then
          "physics_" ++ Util.padNum 6 idx
        else String.mk (Util.sanitizeGo false v1.data)).data, Util.isSafeChar c = true := by
    intro v1
    by_cases h2 : String.mk (Util.sanitizeGo false v1.data) = ""
    · rw [if_pos h2]
      exact hdefault
    · rw [if_neg h2]
      exact ⟨fun hnil => h2 (String.ext hnil), fun c hc => Util.sanitizeGo_safe false _ c hc⟩
  exact key (if Util.pyStrip value = "" then "physics_" ++ Util.padNum 6 idx
    else Util.pyStrip value)

/-- If every collision append is fresh, the emitted ids avoid `seen` and are
pairwise distinct. -/
theorem emitIdsGo_nodup : ∀ (rows : List (Nat × String)) (seen : List String),
    appendsFreshGo seen rows = true →
      (∀ x ∈ emitIdsGo seen rows, ¬ x ∈ seen) ∧ (emitIdsGo seen rows).Nodup := by
  intro rows
  induction rows with
  | nil => intro seen _; simp [emitIdsGo]
  | cons row rest ih =>
    intro seen hfresh
    obtain ⟨outIdx, rawId⟩ := row
    simp only [emitIdsGo, appendsFreshGo] at *
    by_cases hc : seen.contains (_safe_id (if rawId = "" then "" else Util.pathStem rawId) outIdx) = true
    · simp only [hc, if_true] at hfresh ⊢
      set sid := _safe_id (if rawId = "" then "" else Util.pathStem rawId) outIdx ++ "_" ++
        Util.padNum 6 outIdx with hsid
      by_cases hc2 : seen.contains sid = true
      · rw [if_pos hc2] at hfresh
        exact absurd hfresh (by simp)
      · rw [if_neg hc2] at hfresh
        have hc2' : seen.contains sid = false := by
          cases h : seen.contains sid with
          | false => rfl
          | true => exact absurd h hc2
        obtain ⟨havoid, hnodup⟩ := ih (sid :: seen) hfresh
        refine ⟨?_, ?_⟩
        · intro x hx
          rcases List.mem_cons.mp hx with h | h
          · subst h
            exact Util.contains_false_not_mem hc2'
          · intro hxs
            exact havoid x h (List.mem_cons_of_mem _ hxs)
        · refine List.nodup_cons.mpr ⟨?_, hnodup⟩
          intro hmem
          exact havoid sid hmem (List.mem_cons_self _ _)
    · have hcf : seen.contains (_safe_id (if rawId = "" then "" else Util.pathStem rawId) outIdx)
          = false := by
        cases h : seen.contains (_safe_id (if rawId = "" then "" else Util.pathStem rawId) outIdx)
          with
        | false => rfl
        | true => exact absurd h hc
      simp only [hcf, Bool.false_eq_true, if_false] at hfresh ⊢
      set sid := _safe_id (if rawId = "" then "" else Util.pathStem rawId) outIdx with hsid
      obtain ⟨havoid, hnodup⟩ := ih (sid :: seen) hfresh
      refine ⟨?_, ?_⟩
      · intro x hx
        rcases List.mem_cons.mp hx with h | h
        · subst h
          exact Util.contains_false_not_mem hcf
        · intro hxs
          exact havoid x h (List.mem_cons_of_mem _ hxs)
      · refine List.nodup_cons.mpr ⟨?_, hnodup⟩
        intro hmem
        exact havoid sid hmem (List.mem_cons_self _ _)

end PhysIQ

namespace Subset

theorem updateA_mem {κ α : Type} [DecidableEq κ] {k0 : κ} {v0 : α} :
    ∀ {l : List (κ × α)} {k : κ} {v : α}, (k, v) ∈ Util.updateA k0 v0 l →
      (k, v) ∈ l ∨ (k = k0 ∧ v = v0) := by
  intro l
  induction l with
  | nil =>
    intro k v h
    simp [Util.updateA] at h
    exact Or.inr h
  | cons p rest ih =>
    intro k v h
    obtain ⟨a, b⟩ := p
    by_cases ha : a = k0
    · subst ha
      simp only [Util.updateA, if_pos rfl] at h
      rcases List.mem_cons.mp h with h1 | h1
      · cases h1; exact Or.inr ⟨rfl, rfl⟩
      · exact Or.inl (List.mem_cons_of_mem _ h1)
    · simp only [Util.updateA, if_neg ha] at h
      rcases List.mem_cons.mp h with h1 | h1
      · exact Or.inl (h1 ▸ List.mem_cons_self _ _)
      · rcases ih h1 with h2 | h2
        · exact Or.inl (List.mem_cons_of_mem _ h2)
        · exact Or.inr h2

theorem insertSampleG_mem {gkey bkey sid : String} :
    ∀ {gs : Groups} {g : String} {b : Bucket}, (g, b) ∈ insertSampleG gkey bkey sid gs →
      ∀ {k v : String}, (k, v) ∈ b →
        ((∃ b', (g, b') ∈ gs ∧ (k, v) ∈ b') ∨ (g = gkey ∧ k = bkey ∧ v = sid)) := by
  intro gs
  induction gs with
  | nil =>
    intro g b h k v hkv
    simp [insertSampleG] at h
    obtain ⟨hg, hb⟩ := h
    subst hg; subst hb
    simp at hkv
    exact Or.inr ⟨rfl, hkv.1, hkv.2⟩
  | cons p rest ih =>
    intro g b h k v hkv
    obtain ⟨g0, b0⟩ := p
    by_cases hg0 : g0 = gkey
    · subst hg0
      simp only [insertSampleG, if_pos rfl] at h
      rcases List.mem_cons.mp h with h1 | h1
      · cases h1
        rcases updateA_mem hkv with h2 | h2
        · exact Or.inl ⟨b0, List.mem_cons_self _ _, h2⟩
        · exact Or.inr ⟨rfl, h2⟩
      · exact Or.inl ⟨b, List.mem_cons_of_mem _ h1, hkv⟩
    · simp only [insertSampleG, if_neg hg0] at h
      rcases List.mem_cons.mp h with h1 | h1
      · cases h1
        exact Or.inl ⟨b, List.mem_cons_self _ _, hkv⟩
      · rcases ih h1 hkv with h2 | h2
        · obtain ⟨b', hb', hkv'⟩ := h2
          exact Or.inl ⟨b', List.mem_cons_of_mem _ hb', hkv'⟩
        · exact Or.inr h2

/-- Every bucket member of the built groups lies in `S` (any superset of the
inserted ids), belongs to the group of its own group key, and sits at the
bucket key of its own perspective. -/
theorem buildGroups_inv (S : List String) :
    ∀ (ids : List String) (gs : Groups),
      (∀ sid ∈ ids, sid ∈ S) →
      (∀ g b, (g, b) ∈ gs → ∀ k v, (k, v) ∈ b →
        v ∈ S ∧ (_sample_group v).1 = g ∧ k = bucketKey (_sample_group v).2) →
      ∀ g b, (g, b) ∈ buildGroups ids gs → ∀ k v, (k, v) ∈ b →
        v ∈ S ∧ (_sample_group v).1 = g ∧ k = bucketKey (_sample_group v).2 := by
  intro ids
  induction ids with
  | nil =>
    intro gs _ hinv
    simpa [buildGroups] using hinv
  | cons sid rest ih =>
    intro gs hS hinv
    simp only [buildGroups]
    apply ih
    · intro x hx
      exact hS x (List.mem_cons_of_mem _ hx)
    · intro g b hgb k v hkv
      rcases insertSampleG_mem hgb hkv with h1 | h1
      · obtain ⟨b', hb', hkv'⟩ := h1
        exact hinv g b' hb' k v hkv'
      · obtain ⟨hg, hk, hv⟩ := h1
        subst hg; subst hk; subst hv
        exact ⟨hS v (List.mem_cons_self _ _), rfl, rfl⟩

theorem insertSampleG_keys (gkey bkey sid : String) :
    ∀ gs : Groups, (insertSampleG gkey bkey sid gs).map Prod.fst =
      if gkey ∈ gs.map Prod.fst then gs.map Prod.fst else gs.map Prod.fst ++ [gkey] := by
  intro gs
  induction gs with
  | nil => simp [insertSampleG]
  | cons p rest ih =>
    obtain ⟨g0, b0⟩ := p
    by_cases hg : g0 = gkey
    · subst hg
      simp [insertSampleG]
    · simp only [insertSampleG, if_neg hg, List.map_cons, ih]
      by_cases hmem : gkey ∈ rest.map Prod.fst
      · simp [hmem, Ne.symm hg]
      · simp [hmem, Ne.symm hg]

theorem buildGroups_keys_nodup : ∀ (ids : List String) (gs : Groups),
    (gs.map Prod.fst).Nodup → ((buildGroups ids gs).map Prod.fst).Nodup := by
  intro ids
  induction ids with
  | nil =>
    intro gs h
    simpa [buildGroups] using h
  | cons sid rest ih =>
    intro gs h
    simp only [buildGroups]
    apply ih
    rw [insertSampleG_keys]
    split
    · exact h
    · next hnot =>
      simp [List.nodup_append, h, hnot]

theorem prefChoose_mem : ∀ (ps : List String) (b : Bucket) {x : String},
    prefChoose ps b = some x → ∃ k, Util.lookupA k b = some x := by
  intro ps
  induction ps with
  | nil =>
    intro b x h
    simp [prefChoose] at h
  | cons p rest ih =>
    intro b x h
    simp only [prefChoose] at h
    split at h
    · next sid hl =>
      cases h
      exact ⟨p, hl⟩
    · exact ih b h

theorem chooseFromBucket_mem {pref : List String} {b : Bucket} {x : String}
    (h : chooseFromBucket pref b = some x) : ∃ k, (k, x) ∈ b := by
  simp only [chooseFromBucket] at h
  split at h
  · next hl =>
    cases h
    exact ⟨"__single__", Util.lookupA_mem hl⟩
  · split at h
    · next hl =>
      cases h
      obtain ⟨k, hk⟩ := prefChoose_mem pref b hl
      exact ⟨k, Util.lookupA_mem hk⟩
    · split at h
      · simp at h
      · exact ⟨_, Util.lookupA_mem h⟩

theorem lookupA_isSome_of_key_mem {κ α : Type} [DecidableEq κ] {k : κ} :
    ∀ {l : List (κ × α)}, k ∈ l.map Prod.fst → ∃ v, Util.lookupA k l = some v := by
  intro l
  induction l with
  | nil => intro h; simp at h
  | cons p rest ih =>
    intro h
    obtain ⟨a, b⟩ := p
    by_cases ha : a = k
    · exact ⟨b, by simp [Util.lookupA, ha]⟩
    · simp only [List.map_cons, List.mem_cons] at h
      rcases h with h | h
      · exact absurd h.symm ha
      · obtain ⟨v, hv⟩ := ih h
        exact ⟨v, by simp [Util.lookupA, ha, hv]⟩

theorem minKeyOf_key_mem : ∀ (b : Bucket), b ≠ [] →
    ∃ k, minKeyOf b = some k ∧ k ∈ b.map Prod.fst := by
  intro b hb
  match b with
  | (k0, v0) :: rest =>
    refine ⟨_, rfl, ?_⟩
    clear hb
    induction rest generalizing k0 v0 with
    | nil => simp
    | cons q rest' ih =>
      obtain ⟨k1, v1⟩ := q
      simp only [List.foldl_cons]
      by_cases hlt : k1 < k0
      · simp only [hlt, if_pos, decide_eq_true_eq]
        have := ih k1 v1
        simp only [List.map_cons, List.mem_cons] at this ⊢
        tauto
      · simp only [hlt, if_neg, decide_eq_true_eq]
        have := ih k0 v0
        simp only [List.map_cons, List.mem_cons] at this ⊢
        tauto

theorem chooseFromBucket_isSome {pref : List String} {b : Bucket} (hb : b ≠ []) :
    ∃ x, chooseFromBucket pref b = some x := by
  simp only [chooseFromBucket]
  split
  · exact ⟨_, rfl⟩
  · split
    · exact ⟨_, rfl⟩
    · obtain ⟨k, hk, hkm⟩ := minKeyOf_key_mem b hb
      rw [hk]
      exact lookupA_isSome_of_key_mem hkm

theorem selectGo_mem (pref : List String) (maxPer : Int) :
    ∀ (gs : Groups) (count : Nat) {x : String}, x ∈ selectGo pref maxPer count gs →
      ∃ g b, (g, b) ∈ gs ∧ chooseFromBucket pref b = some x := by
  intro gs
  induction gs with
  | nil =>
    intro count x h
    simp [selectGo] at h
  | cons p rest ih =>
    intro count x h
    obtain ⟨g, b⟩ := p
    simp only [selectGo] at h
    split at h
    · obtain ⟨g', b', hgb', hch'⟩ := ih count h
      exact ⟨g', b', List.mem_cons_of_mem _ hgb', hch'⟩
    · next sid hch =>
      split at h
      · simp only [List.mem_singleton] at h
        subst h
        exact ⟨g, b, List.mem_cons_self _ _, hch⟩
      · rcases List.mem_cons.mp h with h1 | h1
        · subst h1
          exact ⟨g, b, List.mem_cons_self _ _, hch⟩
        · obtain ⟨g', b', hgb', hch'⟩ := ih (count + 1) h1
          exact ⟨g', b', List.mem_cons_of_mem _ hgb', hch'⟩

theorem selectGo_groupKey (pref : List String) (maxPer : Int) (gs : Groups)
    (hinv : ∀ g b, (g, b) ∈ gs → ∀ k v, (k, v) ∈ b → (_sample_group v).1 = g)
    (count : Nat) :
    ∀ x ∈ selectGo pref maxPer count gs, (_sample_group x).1 ∈ gs.map Prod.fst := by
  intro x hx
  obtain ⟨g, b, hgb, hch⟩ := selectGo_mem pref maxPer gs count hx
  obtain ⟨k, hk⟩ := chooseFromBucket_mem hch
  rw [hinv g b hgb k x hk]
  exact List.mem_map.mpr ⟨(g, b), hgb, rfl⟩

theorem selectGo_pairwise (pref : List String) (maxPer : Int) :
    ∀ (gs : Groups) (count : Nat),
      (gs.map Prod.fst).Nodup →
      (∀ g b, (g, b) ∈ gs → ∀ k v, (k, v) ∈ b → (_sample_group v).1 = g) →
      (selectGo pref maxPer count gs).Pairwise
        (fun a c => (_sample_group a).1 ≠ (_sample_group c).1) := by
  intro gs
  induction gs with
  | nil =>
    intro count _ _
    simp [selectGo]
  | cons p rest ih =>
    intro count hnodup hinv
    obtain ⟨g, b⟩ := p
    rw [List.map_cons] at hnodup
    have hsplit := List.nodup_cons.mp hnodup
    have hgnot : g ∉ rest.map Prod.fst := hsplit.1
    have hnodup' : (rest.map Prod.fst).Nodup := hsplit.2
    have hinv' : ∀ g' b', (g', b') ∈ rest → ∀ k v, (k, v) ∈ b' → (_sample_group v).1 = g' :=
      fun g' b' h => hinv g' b' (List.mem_cons_of_mem _ h)
    simp only [selectGo]
    split
    · exact ih count hnodup' hinv'
    · next sid hch =>
      split
      · exact List.pairwise_singleton _ _
      · refine List.pairwise_cons.mpr ⟨?_, ih (count + 1) hnodup' hinv'⟩
        intro y hy
        have hgy := selectGo_groupKey pref maxPer rest hinv' (count + 1) y hy
        have hgx : (_sample_group sid).1 = g := by
          obtain ⟨k, hk⟩ := chooseFromBucket_mem hch
          exact hinv g b (List.mem_cons_self _ _) k sid hk
        rw [hgx]
        intro heq
        apply hgnot
        rw [heq]
        exact hgy

theorem selectGo_length (pref : List String) (maxPer : Int) (hpos : 0 < maxPer) :
    ∀ (gs : Groups) (count : Nat), (count : Int) < maxPer →
      (selectGo pref maxPer count gs).length + count ≤ maxPer.toNat := by
  intro gs
  induction gs with
  | nil =>
    intro count h
    simp only [selectGo, List.length_nil]
    omega
  | cons p rest ih =>
    intro count hcount
    obtain ⟨g, b⟩ := p
    simp only [selectGo]
    split
    · exact ih count hcount
    · next sid hch =>
      split
      · next hbreak =>
        simp only [List.length_singleton]
        omega
      · next hbreak =>
        have hlt : ((count + 1 : Nat) : Int) < maxPer := by
          push_cast
          omega
        have := ih (count + 1) hlt
        simp only [List.length_cons]
        omega

end Subset

/-! ### Claim theorems -/

/-- Claim C8: whenever a basename or normalized-name lookup in the CSV
manifest builder yields multiple candidate paths, `_pick_best_match` returns
the candidate whose `_rank_match` tuple (take-filter containment with
containing preferred, index of the first matched preferred path substring with
unmatched candidates ranking last, number of path components with shallower
preferred, path string length with shorter preferred) is lexicographically
smallest among all candidates: no candidate ranks strictly below the returned
match, and the returned match ranks at or below every candidate. -/
theorem claim_C8 (cands prefer : List String) (takeFilter : String) (h : cands ≠ []) :
    ∃ best, PhysIQ._pick_best_match cands prefer takeFilter = some best ∧ best ∈ cands ∧
      (∀ x ∈ cands, PhysIQ.rankLtb (PhysIQ._rank_match x prefer takeFilter)
        (PhysIQ._rank_match best prefer takeFilter) = false) ∧
      (∀ x ∈ cands, PhysIQ.rankLtb (PhysIQ._rank_match best prefer takeFilter)
          (PhysIQ._rank_match x prefer takeFilter) = true ∨
        PhysIQ._rank_match x prefer takeFilter = PhysIQ._rank_match best prefer takeFilter) := by
  match cands with
  | [] => exact absurd rfl h
  | m :: rest =>
    obtain ⟨hmem, hle⟩ :=
      PhysIQ.foldlMin_spec (fun p => PhysIQ._rank_match p prefer takeFilter) rest m
    exact ⟨_, rfl, hmem, fun x hx => hle x hx,
      fun x hx => (PhysIQ.rankLtb_false_total (hle x hx)).imp id Eq.symm⟩

/-- Witness for C8 at a concrete candidate list. -/
theorem claim_C8_witness :
    ∃ best,
      PhysIQ._pick_best_match ["/a/b/c/x.mp4", "/a/full-videos/x.mp4"] ["full-videos"] "" =
        some best ∧
      best ∈ ["/a/b/c/x.mp4", "/a/full-videos/x.mp4"] ∧
      (∀ x ∈ ["/a/b/c/x.mp4", "/a/full-videos/x.mp4"],
        PhysIQ.rankLtb (PhysIQ._rank_match x ["full-videos"] "")
          (PhysIQ._rank_match best ["full-videos"] "") = false) ∧
      (∀ x ∈ ["/a/b/c/x.mp4", "/a/full-videos/x.mp4"],
        PhysIQ.rankLtb (PhysIQ._rank_match best ["full-videos"] "")
            (PhysIQ._rank_match x ["full-videos"] "") = true ∨
          PhysIQ._rank_match x ["full-videos"] "" = PhysIQ._rank_match best ["full-videos"] "") :=
  claim_C8 ["/a/b/c/x.mp4", "/a/full-videos/x.mp4"] ["full-videos"] "" (by decide)

/-- Claim C5 (amended): `_safe_id` always returns a non-empty string over
`[A-Za-z0-9._-]`; and within one builder run, a collision is resolved by
appending the 1-based output index, which yields pairwise-distinct emitted ids
whenever each appended id is itself fresh (the counterexample shows the
appended id can collide with an id emitted earlier, so the freshness proviso
is necessary). -/
theorem claim_C5 (rows : List (Nat × String)) (h : PhysIQ.appendsFresh rows = true) :
    (∀ value idx, (PhysIQ._safe_id value idx).data ≠ [] ∧
      ∀ c ∈ (PhysIQ._safe_id value idx).data, Util.isSafeChar c = true) ∧
    (PhysIQ.emitIds rows).Nodup :=
  ⟨fun value idx => PhysIQ._safe_id_charset value idx,
   (PhysIQ.emitIdsGo_nodup rows [] h).2⟩

/-- Counterexample for C5 as stated: five resolvable rows whose raw ids are
`x, x_000005, a, b, x`; the collision of the fifth row with the first is
"resolved" to `x_000005`, which equals the id emitted for the second row, so
the emitted ids are not pairwise distinct. -/
theorem claim_C5_counterexample :
    ¬ (PhysIQ.emitIds [(1, "x"), (2, "x_000005"), (3, "a"), (4, "b"), (5, "x")]).Nodup := by
  decide

/-- Witness for C5 at a concrete row list with one (fresh) collision. -/
theorem claim_C5_witness :
    (∀ value idx, (PhysIQ._safe_id value idx).data ≠ [] ∧
      ∀ c ∈ (PhysIQ._safe_id value idx).data, Util.isSafeChar c = true) ∧
    (PhysIQ.emitIds [(1, "ball"), (2, "cup"), (3, "ball")]).Nodup :=
  claim_C5 [(1, "ball"), (2, "cup"), (3, "ball")] (by decide)

/-- Claim C2: for every sequence of reference-manifest sample ids, every
preference list, and every cap `max_per_dataset > 0`, `_select_ids` returns at
most `max_per_dataset` ids and no two selected ids collapse to the same
perspective-group key (leading numeric index stripped, perspective marker
removed). -/
theorem claim_C2 (ids : List String) (maxPer : Int) (pref : List String) (h : 0 < maxPer) :
    (Subset._select_ids ids maxPer pref).length ≤ maxPer.toNat ∧
    (Subset._select_ids ids maxPer pref).Pairwise
      (fun a b => (Subset._sample_group a).1 ≠ (Subset._sample_group b).1) := by
  constructor
  · have := Subset.selectGo_length pref maxPer h (Subset.buildGroups ids []) 0
      (by exact_mod_cast h)
    simpa [Subset._select_ids] using this
  · apply Subset.selectGo_pairwise
    · exact Subset.buildGroups_keys_nodup ids [] (by simp)
    · intro g b hgb k v hkv
      exact (Subset.buildGroups_inv ids ids [] (fun s hs => hs) (by simp) g b hgb k v hkv).2.1

/-- Witness for C2 on the spec's scenario C triplet. -/
theorem claim_C2_witness :
    (Subset._select_ids ["001_scene_perspective-left_x", "001_scene_perspective-center_x",
        "001_scene_perspective-right_x"] 10 ["center", "left", "right"]).length ≤
      (10 : Int).toNat ∧
    (Subset._select_ids ["001_scene_perspective-left_x", "001_scene_perspective-center_x",
        "001_scene_perspective-right_x"] 10 ["center", "left", "right"]).Pairwise
      (fun a b => (Subset._sample_group a).1 ≠ (Subset._sample_group b).1) :=
  claim_C2 ["001_scene_perspective-left_x", "001_scene_perspective-center_x",
    "001_scene_perspective-right_x"] 10 ["center", "left", "right"] (by decide)

namespace Prep

/-- If any row lacks a prompt, the row-normalization loop errors (possibly on
an earlier row, but it can never return `.ok`). -/
theorem normalizeGo_error_of_missing_prompt :
    ∀ (rows : List Row) (env : PrepEnv) (dir : String) (index : Nat)
      (seen : List (String × Nat)),
      (∃ row ∈ rows, _pick_value row PROMPT_KEYS = none) →
      ∃ e, normalizeGo env dir index seen rows = .error e := by
  intro rows
  induction rows with
  | nil =>
    intro env dir index seen h
    simp at h
  | cons row rest ih =>
    intro env dir index seen h
    cases hdup : Util.lookupA (rowSampleId row index) seen with
    | some prev =>
      exact ⟨"Duplicate sample_id " ++ rowSampleId row index, by simp [normalizeGo, hdup]⟩
    | none =>
      cases hrr : normalizeRowRest env dir index row (rowSampleId row index) with
      | error e =>
        exact ⟨e, by simp [normalizeGo, hdup, hrr]⟩
      | ok rec =>
        rcases h with ⟨r, hr, hnone⟩
        have hrest : ∃ r ∈ rest, _pick_value r PROMPT_KEYS = none := by
          rcases List.mem_cons.mp hr with h1 | h1
          · subst h1
            exfalso
            simp [normalizeRowRest, hnone] at hrr
          · exact ⟨r, h1, hnone⟩
        obtain ⟨e, he⟩ := ih env dir (index + 1) ((rowSampleId row index, index) :: seen) hrest
        refine ⟨e, ?_⟩
        simp [normalizeGo, hdup, hrr, he]

/-- Sanitization is the identity on strings over the safe class. -/
theorem sanitizeGo_of_safe : ∀ cs : List Char, (∀ c ∈ cs, Util.isSafeChar c = true) →
    Util.sanitizeGo false cs = cs := by
  intro cs
  induction cs with
  | nil => intro _; rfl
  | cons c rest ih =>
    intro h
    have hc := h c (List.mem_cons_self _ _)
    simp only [Util.sanitizeGo, hc, if_true]
    rw [ih (fun c' hc' => h c' (List.mem_cons_of_mem _ hc'))]

theorem default_sample_id_safe (index : Nat) :
    ∀ c ∈ ("sample_" ++ Util.padNum 5 index).data, Util.isSafeChar c = true := by
  intro c hc
  rw [String.data_append] at hc
  rcases List.mem_append.mp hc with h | h
  · fin_cases h <;> decide
  · exact Util.padNum_safe 5 index c h

theorem default_sample_id_ne_empty (index : Nat) :
    ("sample_" ++ Util.padNum 5 index) ≠ "" := by
  intro h
  have : ("sample_" ++ Util.padNum 5 index).data = [] := by rw [h]
  rw [String.data_append] at this
  simp at this

/-- `_safe_sample_id` on a row with no usable id field yields the positional
default `sample_<index zero-padded to 5 digits>`. -/
theorem _safe_sample_id_empty (index : Nat) :
    _safe_sample_id "" index = "sample_" ++ Util.padNum 5 index := by
  have hsan := sanitizeGo_of_safe _ (default_sample_id_safe index)
  have hne := default_sample_id_ne_empty index
  have hsan2 : String.mk (Util.sanitizeGo false ("sample_" ++ Util.padNum 5 index).data) =
      "sample_" ++ Util.padNum 5 index := by
    apply String.ext
    simpa using hsan
  simp only [_safe_sample_id]
  rw [show Util.pyStrip "" = "" from rfl, if_pos rfl, hsan2, if_neg hne]

end Prep

namespace Util

theorem mem_of_contains_true {α : Type} [BEq α] [LawfulBEq α] {a : α} {l : List α}
    (h : l.contains a = true) : a ∈ l := by
  rw [List.contains] at h
  exact List.mem_of_elem_eq_true h

end Util

/-- Claim C1: a manifest with a row missing every prompt field makes the
Layout Preparer abort during row normalization: `prepMain` returns an error,
and the effect trace contains only the manifest stat, the run-root `mkdir`
and the manifest read — no shared sample-asset directory or file and no
per-model/per-task file is ever created. -/
theorem claim_C1 (env : Prep.PrepEnv) (args : Prep.PrepArgs) (rows : List Prep.Row)
    (hman : env.isFile (env.resolveArg args.manifest) = true)
    (hrows : env.readRows = .ok rows)
    (hbad : ∃ row ∈ rows, Prep._pick_value row Prep.PROMPT_KEYS = none)
    (hmodels : Util.splitCommaTrim args.models ≠ [])
    (htasks : Util.splitCommaTrim args.tasks ≠ [])
    (hsupported : ∀ t ∈ Util.splitCommaTrim args.tasks, t ∈ Prep.DEFAULT_TASKS) :
    ∃ e, Prep.prepMain env args =
      ([Prep.PrepEffect.statPath (env.resolveArg args.manifest),
        Prep.PrepEffect.mkdirAll (env.resolveArg args.runRoot),
        Prep.PrepEffect.readManifestFile (env.resolveArg args.manifest)], .error e) := by
  obtain ⟨e, he⟩ := Prep.normalizeGo_error_of_missing_prompt rows env
    (Prep.parentDir (env.resolveArg args.manifest)) 1 [] hbad
  have hfil : (Util.splitCommaTrim args.tasks).filter
      (fun t => !Prep.DEFAULT_TASKS.contains t) = [] := by
    simpa using hsupported
  have he2 : Prep._normalize_rows env (Prep.parentDir (env.resolveArg args.manifest)) rows =
      .error e := he
  refine ⟨e, ?_⟩
  simp only [Prep.prepMain]
  rw [hman]
  simp only [Bool.not_true, Bool.false_eq_true, if_false]
  rw [if_neg hmodels, if_neg htasks, if_neg (fun h => h hfil), hrows]
  simp [he2]

/-- Witness for C1: a two-row manifest whose first row has no prompt. -/
theorem claim_C1_witness :
    ∃ e, Prep.prepMain
      { isFile := fun _ => true, isDir := fun _ => false, ffmpegOk := fun _ => true,
        resolveArg := fun s => s, resolvePath := fun raw _ => raw,
        readRows := .ok [[("ground_truth_video", "/g.mp4")],
          [("prompt", "hello"), ("ground_truth_video", "/g.mp4")]] }
      { manifest := "/m.jsonl", runRoot := "/rr", datasetName := "d",
        models := "wan22,wan21,lvp", tasks := "t2v,i2v", materializeMode := .symlink,
        noExtractFirstFrame := false, allowMissingI2vImage := false } =
      ([Prep.PrepEffect.statPath "/m.jsonl", Prep.PrepEffect.mkdirAll "/rr",
        Prep.PrepEffect.readManifestFile "/m.jsonl"], .error e) :=
  claim_C1 _ _ [[("ground_truth_video", "/g.mp4")],
      [("prompt", "hello"), ("ground_truth_video", "/g.mp4")]]
    rfl rfl (by decide) (by decide) (by decide) (by decide)

/-- Claim C7 (amended): an invocation whose requested task list contains a
name outside the supported set always fails before any manifest row is read
and before any sample-asset or per-model/per-task file is created; however,
the run-root directory creation (and the manifest existence check) DO precede
the failure, so the trace is limited to those two effects rather than empty. -/
theorem claim_C7 (env : Prep.PrepEnv) (args : Prep.PrepArgs)
    (hbad : ∃ t ∈ Util.splitCommaTrim args.tasks, ¬ t ∈ Prep.DEFAULT_TASKS) :
    (∃ e, (Prep.prepMain env args).2 = .error e) ∧
    ∀ eff ∈ (Prep.prepMain env args).1,
      eff = Prep.PrepEffect.statPath (env.resolveArg args.manifest) ∨
      eff = Prep.PrepEffect.mkdirAll (env.resolveArg args.runRoot) := by
  obtain ⟨t0, ht0, ht0n⟩ := hbad
  have htasks_ne : Util.splitCommaTrim args.tasks ≠ [] := List.ne_nil_of_mem ht0
  have hfil : (Util.splitCommaTrim args.tasks).filter
      (fun t => !Prep.DEFAULT_TASKS.contains t) ≠ [] := by
    suffices hmem2 : t0 ∈ (Util.splitCommaTrim args.tasks).filter
        (fun t => !Prep.DEFAULT_TASKS.contains t) from List.ne_nil_of_mem hmem2
    refine List.mem_filter.mpr ⟨ht0, ?_⟩
    simp only [Bool.not_eq_true']
    cases hq : Prep.DEFAULT_TASKS.contains t0 with
    | false => rfl
    | true => exact absurd (Util.mem_of_contains_true hq) ht0n
  cases hman : env.isFile (env.resolveArg args.manifest) with
  | false =>
    have hrun : Prep.prepMain env args =
        ([Prep.PrepEffect.statPath (env.resolveArg args.manifest)],
         .error ("Manifest not found: " ++ env.resolveArg args.manifest)) := by
      simp only [Prep.prepMain]
      rw [hman]
      simp
    rw [hrun]
    refine ⟨⟨_, rfl⟩, ?_⟩
    intro eff heff
    simp at heff
    exact Or.inl heff
  | true =>
    by_cases hm : Util.splitCommaTrim args.models = []
    · have hrun : Prep.prepMain env args =
          ([Prep.PrepEffect.statPath (env.resolveArg args.manifest),
            Prep.PrepEffect.mkdirAll (env.resolveArg args.runRoot)],
           .error "No models provided.") := by
        simp only [Prep.prepMain]
        rw [hman]
        simp only [Bool.not_true, Bool.false_eq_true, if_false]
        rw [if_pos hm]
        simp
      rw [hrun]
      refine ⟨⟨_, rfl⟩, ?_⟩
      intro eff heff
      simp at heff
      exact heff.imp id id
    · have hrun : Prep.prepMain env args =
          ([Prep.PrepEffect.statPath (env.resolveArg args.manifest),
            Prep.PrepEffect.mkdirAll (env.resolveArg args.runRoot)],
           .error ("Unsupported tasks: " ++ Util.joinSep ", "
             ((Util.splitCommaTrim args.tasks).filter
               (fun t => !Prep.DEFAULT_TASKS.contains t)))) := by
        simp only [Prep.prepMain]
        rw [hman]
        simp only [Bool.not_true, Bool.false_eq_true, if_false]
        rw [if_neg hm, if_neg htasks_ne, if_pos hfil]
        simp
      rw [hrun]
      refine ⟨⟨_, rfl⟩, ?_⟩
      intro eff heff
      simp at heff
      exact heff.imp id id

/-- Counterexample for C7 as stated: with an existing manifest and task list
`t2v,bogus`, the run does fail with the configuration error, but only after
the run-root directory has been created (and the manifest stat performed), so
"no file or directory is created or read before the error is raised" is
false. -/
theorem claim_C7_counterexample :
    Prep.PrepEffect.mkdirAll "/rr" ∈
      (Prep.prepMain
        { isFile := fun p => p == "/m.jsonl", isDir := fun _ => false,
          ffmpegOk := fun _ => true, resolveArg := fun s => s,
          resolvePath := fun raw _ => raw, readRows := .ok [] }
        { manifest := "/m.jsonl", runRoot := "/rr", datasetName := "d", models := "wan22",
          tasks := "t2v,bogus", materializeMode := .symlink, noExtractFirstFrame := false,
          allowMissingI2vImage := false }).1 ∧
    (Prep.prepMain
        { isFile := fun p => p == "/m.jsonl", isDir := fun _ => false,
          ffmpegOk := fun _ => true, resolveArg := fun s => s,
          resolvePath := fun raw _ => raw, readRows := .ok [] }
        { manifest := "/m.jsonl", runRoot := "/rr", datasetName := "d", models := "wan22",
          tasks := "t2v,bogus", materializeMode := .symlink, noExtractFirstFrame := false,
          allowMissingI2vImage := false }).2 = .error "Unsupported tasks: bogus" := by
  constructor
  · decide
  · rfl

/-- Witness for C7 at a concrete bad-task invocation. -/
theorem claim_C7_witness :
    (∃ e, (Prep.prepMain
      { isFile := fun _ => true, isDir := fun _ => false, ffmpegOk := fun _ => true,
        resolveArg := fun s => s, resolvePath := fun raw _ => raw, readRows := .ok [] }
      { manifest := "/m2.jsonl", runRoot := "/rr2", datasetName := "d", models := "wan22",
        tasks := "i2v,t2x", materializeMode := .copy, noExtractFirstFrame := false,
        allowMissingI2vImage := false }).2 = .error e) ∧
    ∀ eff ∈ (Prep.prepMain
      { isFile := fun _ => true, isDir := fun _ => false, ffmpegOk := fun _ => true,
        resolveArg := fun s => s, resolvePath := fun raw _ => raw, readRows := .ok [] }
      { manifest := "/m2.jsonl", runRoot := "/rr2", datasetName := "d", models := "wan22",
        tasks := "i2v,t2x", materializeMode := .copy, noExtractFirstFrame := false,
        allowMissingI2vImage := false }).1,
      eff = Prep.PrepEffect.statPath "/m2.jsonl" ∨ eff = Prep.PrepEffect.mkdirAll "/rr2" :=
  claim_C7 _ _ (by decide)

/-- Claim C10: a manifest row in which none of the id fields is present and
non-empty is not fatal on that account: its sample id is the positional
default `sample_<row index zero-padded to 5 digits>`, and the row normalizes
successfully whenever its prompt and ground-truth video are in order. -/
theorem claim_C10 (env : Prep.PrepEnv) (dir : String) (row : Prep.Row) (index : Nat)
    (hid : Prep._pick_value row Prep.ID_KEYS = none)
    (p g : String)
    (hp : Prep._pick_value row Prep.PROMPT_KEYS = some p)
    (hg : Prep._pick_value row Prep.GT_KEYS = some g)
    (hgf : env.isFile (env.resolvePath g dir) = true)
    (him : Prep._pick_value row Prep.IMAGE_KEYS = none) :
    Prep.rowSampleId row index = "sample_" ++ Util.padNum 5 index ∧
    Prep.normalizeRowRest env dir index row (Prep.rowSampleId row index) =
      .ok ⟨"sample_" ++ Util.padNum 5 index, p, env.resolvePath g dir, none, index⟩ := by
  have hsid : Prep.rowSampleId row index = "sample_" ++ Util.padNum 5 index := by
    simp [Prep.rowSampleId, hid, Prep._safe_sample_id_empty]
  refine ⟨hsid, ?_⟩
  rw [hsid]
  simp [Prep.normalizeRowRest, hp, hg, hgf, him]

/-- Witness for C10: a row carrying only a prompt and a video path. -/
theorem claim_C10_witness :
    Prep.rowSampleId [("prompt", "hello"), ("video", "/v.mp4")] 3 =
      "sample_" ++ Util.padNum 5 3 ∧
    Prep.normalizeRowRest
      { isFile := fun _ => true, isDir := fun _ => false, ffmpegOk := fun _ => true,
        resolveArg := fun s => s, resolvePath := fun raw _ => raw, readRows := .ok [] }
      "/m" 3 [("prompt", "hello"), ("video", "/v.mp4")]
      (Prep.rowSampleId [("prompt", "hello"), ("video", "/v.mp4")] 3) =
      .ok ⟨"sample_" ++ Util.padNum 5 3, "hello", "/v.mp4", none, 3⟩ :=
  claim_C10 _ "/m" [("prompt", "hello"), ("video", "/v.mp4")] 3 (by decide) "hello" "/v.mp4"
    (by decide) (by decide) rfl (by decide)

/-- Claim C9: over an existing run root, an invocation whose
`--perspective-preference` list contains a token other than left, center,
right raises the `ValueError` naming the invalid tokens, and its trace holds
only the run-root check: no manifest is stat-ed, read, backed up or
written. -/
theorem claim_C9 (args : Subset.SubArgs) (st : Subset.Layout)
    (hbad : ∃ t ∈ Util.splitCommaTrim args.perspectivePreference,
      ¬ t ∈ Subset.PERSPECTIVES) :
    Subset.subMain true args st =
      ([Subset.SubEff.statRunRoot args.runRoot],
       .error (Subset.invalidPerspMsg
         ((Util.splitCommaTrim args.perspectivePreference).filter
           (fun p => !Subset.PERSPECTIVES.contains p)))) := by
  obtain ⟨t0, ht0, ht0n⟩ := hbad
  have hfil : (Util.splitCommaTrim args.perspectivePreference).filter
      (fun p => !Subset.PERSPECTIVES.contains p) ≠ [] := by
    suffices hmem2 : t0 ∈ (Util.splitCommaTrim args.perspectivePreference).filter
        (fun p => !Subset.PERSPECTIVES.contains p) from List.ne_nil_of_mem hmem2
    refine List.mem_filter.mpr ⟨ht0, ?_⟩
    simp only [Bool.not_eq_true']
    cases hq : Subset.PERSPECTIVES.contains t0 with
    | false => rfl
    | true => exact absurd (Util.mem_of_contains_true hq) ht0n
  simp only [Subset.subMain]
  rw [if_neg (fun h => h trivial), if_pos hfil]

/-- Witness for C9 with preference list `center,diagonal`. -/
theorem claim_C9_witness :
    Subset.subMain true
      { runRoot := "/rr", datasets := "physics_iq", models := "wan22", tasks := "t2v",
        maxPerDataset := 20, perspectivePreference := "center,diagonal",
        referenceModel := "wan22", referenceTask := "t2v", dryRun := false } [] =
      ([Subset.SubEff.statRunRoot "/rr"],
       .error (Subset.invalidPerspMsg
         ((Util.splitCommaTrim "center,diagonal").filter
           (fun p => !Subset.PERSPECTIVES.contains p)))) :=
  claim_C9 _ [] (by decide)

namespace PhysIQ

theorem alnum_not_sep {c : Char} (h : isAlnumLower c = true) : isSepChar c = false := by
  by_cases h1 : c = '_'
  · subst h1; exact absurd h (by decide)
  · by_cases h2 : c = '-'
    · subst h2; exact absurd h (by decide)
    · simp [isSepChar, h1, h2]

theorem alnum_not_dot {c : Char} (h : isAlnumLower c = true) : c ≠ '.' := by
  intro h1
  subst h1
  exact absurd h (by decide)

theorem alnum_not_slash {c : Char} (h : isAlnumLower c = true) : c ≠ '/' := by
  intro h1
  subst h1
  exact absurd h (by decide)

theorem alnum_toLower {c : Char} (h : isAlnumLower c = true) : c.toLower = c := by
  simp only [isAlnumLower, Bool.or_eq_true, Bool.and_eq_true, decide_eq_true_eq] at h
  unfold Char.toLower
  rw [if_neg]
  intro hcon
  rcases h with ⟨h1, h2⟩ | ⟨h1, h2⟩
  · have h1' : 97 ≤ c.toNat := h1
    exact absurd hcon.2 (by omega)
  · have h2' : c.toNat ≤ 57 := h2
    exact absurd hcon.1 (by omega)

/-- Every token produced by the splitter consists of `[a-z0-9]` characters. -/
theorem splitNA_alnum : ∀ (cs acc : List Char), (∀ c ∈ acc, isAlnumLower c = true) →
    ∀ t ∈ splitNA cs acc, ∀ c ∈ t, isAlnumLower c = true := by
  intro cs
  induction cs with
  | nil =>
    intro acc hacc t ht c hc
    simp only [splitNA] at ht
    split at ht
    · simp at ht
    · simp only [List.mem_singleton] at ht
      subst ht
      exact hacc c (List.mem_reverse.mp hc)
  | cons x rest ih =>
    intro acc hacc t ht c hc
    by_cases hx : isAlnumLower x = true
    · rw [splitNA, if_pos hx] at ht
      refine ih (x :: acc) ?_ t ht c hc
      intro c' hc'
      rcases List.mem_cons.mp hc' with h | h
      · subst h; exact hx
      · exact hacc c' h
    · rw [splitNA, if_neg hx] at ht
      split at ht
      · exact ih [] (by simp) t ht c hc
      · rcases List.mem_cons.mp ht with h | h
        · subst h
          exact hacc c (List.mem_reverse.mp hc)
        · exact ih [] (by simp) t h c hc

/-- The splitter on an all-`[a-z0-9]` list returns the single run. -/
theorem splitNA_all_alnum : ∀ (cs acc : List Char), (∀ c ∈ cs, isAlnumLower c = true) →
    splitNA cs acc = if (acc.reverse ++ cs).isEmpty then [] else [acc.reverse ++ cs] := by
  intro cs
  induction cs with
  | nil =>
    intro acc _
    simp only [splitNA, List.append_nil]
    by_cases h : acc.isEmpty
    · have : acc = [] := by cases acc with | nil => rfl | cons a b => simp at h
      subst this
      simp
    · have : acc ≠ [] := by cases acc with | nil => simp at h | cons a b => simp
      simp only [h, Bool.false_eq_true, if_false]
      rw [if_neg]
      simp [this]
  | cons x rest ih =>
    intro acc hall
    have hx := hall x (List.mem_cons_self _ _)
    rw [splitNA, if_pos hx]
    rw [ih (x :: acc) (fun c hc => hall c (List.mem_cons_of_mem _ hc))]
    simp

/-- The normalized name consists of `[a-z0-9]` characters only. -/
theorem _normalize_name_alnum (name : String) :
    ∀ c ∈ (_normalize_name name).data, isAlnumLower c = true := by
  intro c hc
  simp only [_normalize_name] at hc
  rw [List.mem_flatten] at hc
  obtain ⟨t, ht, hct⟩ := hc
  have ht' := List.mem_filter.mp ht
  exact splitNA_alnum _ [] (by simp) t ht'.1 c hct

theorem matchLit_iff : ∀ (w cs r : List Char), matchLit w cs = some r ↔ cs = w ++ r := by
  intro w
  induction w with
  | nil =>
    intro cs r
    simp [matchLit]
  | cons l ls ih =>
    intro cs r
    cases cs with
    | nil =>
      simp [matchLit]
    | cons c cs' =>
      by_cases hc : c = l
      · subst hc
        rw [matchLit, if_pos rfl, ih]
        simp
      · rw [matchLit, if_neg hc]
        simp only [List.cons_append, List.cons.injEq]
        constructor
        · intro h; simp at h
        · intro ⟨h1, _⟩; exact absurd h1 hc

theorem matchLit_append (w1 w2 : List Char) :
    ∀ cs, matchLit (w1 ++ w2) cs = (matchLit w1 cs).bind (matchLit w2) := by
  intro cs
  induction w1 generalizing cs with
  | nil => simp [matchLit]
  | cons l ls ih =>
    cases cs with
    | nil => simp [matchLit]
    | cons c cs' =>
      by_cases hc : c = l
      · subst hc
        rw [List.cons_append, matchLit, if_pos rfl, matchLit, if_pos rfl, ih]
      · rw [List.cons_append, matchLit, if_neg hc, matchLit, if_neg hc]
        rfl

end PhysIQ

namespace PhysIQ

theorem matchSepWord_suffix {w m r : List Char} (h : matchSepWord w m = some r) :
    ∃ w', m = w' ++ r := by
  cases m with
  | nil => simp [matchSepWord] at h
  | cons c rest =>
    simp only [matchSepWord] at h
    split at h
    · refine ⟨c :: w, ?_⟩
      rw [(matchLit_iff w rest r).mp h]
      rfl
    · exact ⟨w, (matchLit_iff w (c :: rest) r).mp h⟩

theorem digit12_suffix {m r : List Char} (h : digit12 m = some r) : ∃ w, m = w ++ r := by
  cases m with
  | nil => simp [digit12] at h
  | cons c rest =>
    simp only [digit12] at h
    split at h
    · cases h
      exact ⟨[c], rfl⟩
    · simp at h

theorem orElse_some {α : Type} {o1 o2 : Option α} {v : α} (h : (o1 <|> o2) = some v) :
    o1 = some v ∨ o2 = some v := by
  cases o1 with
  | none => right; simpa using h
  | some a => left; simpa using h

theorem bind_lit_sep_suffix {w1 w2 cs m : List Char}
    (h : (matchLit w1 cs).bind (matchSepWord w2) = some m) : ∃ w, cs = w ++ m := by
  rw [Option.bind_eq_some] at h
  obtain ⟨m1, h1, h2⟩ := h
  obtain ⟨w', hw'⟩ := matchSepWord_suffix h2
  refine ⟨w1 ++ w', ?_⟩
  rw [(matchLit_iff w1 cs m1).mp h1, hw', List.append_assoc]

theorem bodyOf_suffix (p : Pat) : ∀ {cs m : List Char}, bodyOf p cs = some m →
    ∃ w, cs = w ++ m := by
  intro cs m h
  cases p with
  | p1 =>
    simp only [bodyOf, bodyP1] at h
    rcases orElse_some h with h | h
    · exact bind_lit_sep_suffix h
    rcases orElse_some h with h | h
    · exact bind_lit_sep_suffix h
    rcases orElse_some h with h | h
    · exact bind_lit_sep_suffix h
    · exact bind_lit_sep_suffix h
  | p2 =>
    simp only [bodyOf, bodyP2] at h
    rw [Option.bind_eq_some] at h
    obtain ⟨m1, h1, h2⟩ := h
    have hm1 : ∃ w, cs = w ++ m1 := by
      rcases orElse_some h1 with h | h
      · exact ⟨_, (matchLit_iff _ cs m1).mp h⟩
      rcases orElse_some h with h | h
      · exact ⟨_, (matchLit_iff _ cs m1).mp h⟩
      rcases orElse_some h with h | h
      · exact ⟨_, (matchLit_iff _ cs m1).mp h⟩
      · exact ⟨_, (matchLit_iff _ cs m1).mp h⟩
    obtain ⟨w, hw⟩ := hm1
    refine ⟨w ++ "fps".data, ?_⟩
    rw [hw, (matchLit_iff _ m1 m).mp h2, List.append_assoc]
  | p3 =>
    simp only [bodyOf, bodyP3] at h
    rw [Option.bind_eq_some] at h
    obtain ⟨m1, h1, h2⟩ := h
    have hm1 : ∃ w, m1 = w ++ m := by
      cases m1 with
      | nil => simp at h2
      | cons c rest =>
        simp only at h2
        split at h2
        · obtain ⟨w, hw⟩ := digit12_suffix h2
          exact ⟨c :: w, by rw [hw]; rfl⟩
        · exact digit12_suffix h2
    obtain ⟨w, hw⟩ := hm1
    refine ⟨"take".data ++ w, ?_⟩
    rw [(matchLit_iff _ cs m1).mp h1, hw, List.append_assoc]

theorem bodyOf_nil (p : Pat) : bodyOf p [] = none := by
  cases p <;> rfl

theorem patMatch_false_sepfree (p : Pat) : ∀ {cs : List Char},
    (∀ c ∈ cs, isSepChar c = false) → patMatch p false cs = none := by
  intro cs hsf
  cases cs with
  | nil => rfl
  | cons c rest =>
    simp only [patMatch, Bool.false_eq_true, if_false]
    simp [hsf c (List.mem_cons_self _ _)]

theorem patMatch_true_sepfree (p : Pat) {cs : List Char}
    (hsf : ∀ c ∈ cs, isSepChar c = false) :
    patMatch p true cs = none ∨ patMatch p true cs = some [] := by
  cases hb : bodyOf p cs with
  | none =>
    left
    simp only [patMatch, if_true, hb, Option.none_bind]
    cases cs with
    | nil => rfl
    | cons c rest => simp [hsf c (List.mem_cons_self _ _)]
  | some m =>
    obtain ⟨w, hw⟩ := bodyOf_suffix p hb
    cases m with
    | nil =>
      right
      simp [patMatch, hb, tailSep]
    | cons c rest =>
      have hc : isSepChar c = false := by
        apply hsf
        rw [hw]
        exact List.mem_append_right _ (List.mem_cons_self _ _)
      left
      simp only [patMatch, if_true, hb, Option.some_bind, tailSep, hc, Bool.false_eq_true,
        if_false]
      cases cs with
      | nil => rfl
      | cons c0 rest0 => simp [hsf c0 (List.mem_cons_self _ _)]

theorem subGo_false_sepfree (p : Pat) : ∀ cs : List Char,
    (∀ c ∈ cs, isSepChar c = false) → subGo p false 0 cs = cs := by
  intro cs
  induction cs with
  | nil => intro _; rfl
  | cons c rest ih =>
    intro hsf
    have hpm : patMatch p false (c :: rest) = none := patMatch_false_sepfree p hsf
    simp only [subGo, patMatchLen, hpm, Option.map_none']
    rw [ih (fun c' hc' => hsf c' (List.mem_cons_of_mem _ hc'))]

theorem subGo_skip_all (p : Pat) : ∀ (cs : List Char) (k : Nat), cs.length ≤ k →
    subGo p false k cs = [] := by
  intro cs
  induction cs with
  | nil =>
    intro k _
    cases k <;> rfl
  | cons c rest ih =>
    intro k hk
    cases k with
    | zero => simp at hk
    | succ k' => exact ih k' (by simpa using hk)

/-- On a separator-free string each noise substitution either leaves the
string unchanged or collapses it to a single underscore. -/
theorem applySub_sepfree (p : Pat) (cs : List Char)
    (hsf : ∀ c ∈ cs, isSepChar c = false) :
    applySub p cs = cs ∨ applySub p cs = ['_'] := by
  rcases patMatch_true_sepfree p hsf with hnone | hsome
  · left
    cases cs with
    | nil => rfl
    | cons c rest =>
      simp only [applySub, subGo, patMatchLen, hnone, Option.map_none']
      rw [subGo_false_sepfree p rest (fun c' hc' => hsf c' (List.mem_cons_of_mem _ hc'))]
  · right
    cases cs with
    | nil => simp [patMatch, bodyOf_nil] at hsome
    | cons c rest =>
      simp only [applySub, subGo, patMatchLen, hsome, Option.map_some']
      rw [subGo_skip_all p rest]
      simp

end PhysIQ

namespace PhysIQ

theorem pathName_id {t : String} (h : ∀ c ∈ t.data, c ≠ '/') : Util.pathName t = t := by
  simp only [Util.pathName]
  rw [List.takeWhile_eq_self_iff.mpr]
  · rw [List.reverse_reverse]
  · intro c hc
    simpa using h c (List.mem_reverse.mp hc)

theorem pathStem_id {t : String} (hslash : ∀ c ∈ t.data, c ≠ '/')
    (hdot : ∀ c ∈ t.data, c ≠ '.') : Util.pathStem t = t := by
  simp only [Util.pathStem, pathName_id hslash]
  rw [List.takeWhile_eq_self_iff.mpr]
  · rw [if_pos (by rw [List.length_reverse])]
  · intro c hc
    simpa using hdot c (List.mem_reverse.mp hc)

theorem strLower_id {t : String} (h : ∀ c ∈ t.data, isAlnumLower c = true) :
    Util.strLower t = t := by
  simp only [Util.strLower]
  rw [List.map_congr_left (fun c hc => alnum_toLower (h c hc))]
  cases t with
  | mk d => simp

/-- Applying `_normalize_name` to an all-`[a-z0-9]` string returns the string
itself or the empty string. -/
theorem _normalize_name_alnum_input (t : String)
    (halnum : ∀ c ∈ t.data, isAlnumLower c = true) :
    _normalize_name t = t ∨ _normalize_name t = "" := by
  have hsf : ∀ c ∈ t.data, isSepChar c = false := fun c hc => alnum_not_sep (halnum c hc)
  have hstem : Util.pathStem t = t :=
    pathStem_id (fun c hc => alnum_not_slash (halnum c hc))
      (fun c hc => alnum_not_dot (halnum c hc))
  have hlower : Util.strLower t = t := strLower_id halnum
  simp only [_normalize_name, hstem, hlower]
  rcases applySub_sepfree .p1 t.data hsf with h1 | h1
  · rw [h1]
    rcases applySub_sepfree .p2 t.data hsf with h2 | h2
    · rw [h2]
      rcases applySub_sepfree .p3 t.data hsf with h3 | h3
      · rw [h3]
        rw [splitNA_all_alnum t.data [] halnum]
        by_cases hemp : t.data.isEmpty
        · right
          have ht : t = "" := by
            cases ht0 : t.data with
            | nil =>
              cases t with
              | mk d => cases ht0; rfl
            | cons a b => rw [ht0] at hemp; simp at hemp
          rw [ht]
          decide
        · simp only [List.reverse_nil, List.nil_append, hemp, Bool.false_eq_true, if_false]
          by_cases hnoise : NOISE_TOKENS.contains (String.mk t.data) = true
          · right
            rw [List.filter_cons_of_neg]
            · rfl
            · intro hq
              simp only [Bool.and_eq_true, Bool.not_eq_true'] at hq
              rw [hq.2] at hnoise
              simp at hnoise
          · left
            rw [List.filter_cons_of_pos]
            · cases t with
              | mk d => simp
            · simp only [Bool.and_eq_true, Bool.not_eq_true']
              constructor
              · cases hq : t.data.isEmpty with
                | false => rfl
                | true => exact absurd hq hemp
              · cases hq : NOISE_TOKENS.contains (String.mk t.data) with
                | false => rfl
                | true => exact absurd hq hnoise
      · rw [h3]
        right
        rfl
    · rw [h2]
      right
      rfl
  · rw [h1]
    right
    rfl

end PhysIQ

/-- Claim C4 (amended): `_normalize_name` need not be idempotent — the second
application either fixes the result or collapses it to the empty string (the
counterexample shows the empty case occurs, e.g. when the surviving tokens
concatenate to a noise word or marker). -/
theorem claim_C4 (s : String) :
    PhysIQ._normalize_name (PhysIQ._normalize_name s) = PhysIQ._normalize_name s ∨
    PhysIQ._normalize_name (PhysIQ._normalize_name s) = "" :=
  PhysIQ._normalize_name_alnum_input _ (PhysIQ._normalize_name_alnum s)

/-- Counterexample for C4 as stated: `_normalize_name "tak-e1" = "take1"` (the
tokens `tak` and `e1` survive and concatenate to a take marker), but
`_normalize_name "take1" = ""`, so normalization is not idempotent. -/
theorem claim_C4_counterexample :
    PhysIQ._normalize_name (PhysIQ._normalize_name "tak-e1") ≠
      PhysIQ._normalize_name "tak-e1" := by
  decide

namespace Gallery

theorem applyEv_key_fields (fs : FS) (ev : Event) (e : Entry) :
    (applyEv fs ev e).dataset = e.dataset ∧ (applyEv fs ev e).task = e.task ∧
      (applyEv fs ev e).sample_id = e.sample_id := by
  simp only [applyEv]
  split <;> split <;> split <;> exact ⟨rfl, rfl, rfl⟩

theorem applyEv_prompt (fs : FS) (ev : Event) (e : Entry) :
    (applyEv fs ev e).prompt = pstep e.prompt (promptOf ev) := by
  simp only [applyEv, promptOf, pstep]
  split <;> split <;> split <;> simp_all

theorem applyEv_gt (fs : FS) (ev : Event) (e : Entry) :
    (applyEv fs ev e).ground_truth_video = gstep e.ground_truth_video (gtOf ev) := by
  simp only [applyEv, gtOf, gstep]
  split <;> split <;> split <;> simp_all

theorem applyEv_image (fs : FS) (ev : Event) (e : Entry) :
    (applyEv fs ev e).image_path = gstep e.image_path (imgOf ev) := by
  simp only [applyEv, imgOf, gstep]
  split <;> split <;> split <;> simp_all

theorem applyEv_outputs (fs : FS) (ev : Event) (e : Entry) :
    (applyEv fs ev e).outputs =
      Util.updateA (modelOf ev)
        (_maybe_pick_existing fs ((Util.lookupA (modelOf ev) e.outputs).getD none) (candOf ev))
        e.outputs := by
  simp only [applyEv, candOf, modelOf]
  split <;> split <;> split <;> rfl

theorem applyEv_outputs_lookup (fs : FS) (ev : Event) (e : Entry) (m : String) :
    Util.lookupA m (applyEv fs ev e).outputs =
      if modelOf ev = m then
        some (_maybe_pick_existing fs ((Util.lookupA m e.outputs).getD none) (candOf ev))
      else Util.lookupA m e.outputs := by
  rw [applyEv_outputs]
  by_cases h : modelOf ev = m
  · rw [if_pos h, h, Util.lookupA_updateA_self]
  · rw [if_neg h, Util.lookupA_updateA_ne h]

theorem collectStep_lookup_eq {fs : FS} {models : List String} {st : List (GKey × Entry)}
    {ev : Event} {k : GKey} (h : keyOf ev = some k) :
    Util.lookupA k (collectStep fs models st ev) =
      some (applyEv fs ev ((Util.lookupA k st).getD (newEntry models k))) := by
  unfold collectStep
  simp only [h]
  cases hl : Util.lookupA k st <;> exact Util.lookupA_updateA_self k _ st

theorem collectStep_lookup_ne {fs : FS} {models : List String} {st : List (GKey × Entry)}
    {ev : Event} {k : GKey} (h : keyOf ev ≠ some k) :
    Util.lookupA k (collectStep fs models st ev) = Util.lookupA k st := by
  unfold collectStep
  cases hk : keyOf ev with
  | none => rfl
  | some k2 =>
    have hne : k2 ≠ k := fun he => h (he ▸ hk)
    exact Util.lookupA_updateA_ne hne _ st

theorem evsAt_append (k : GKey) (l1 l2 : List Event) :
    evsAt k (l1 ++ l2) = evsAt k l1 ++ evsAt k l2 := by
  simp [evsAt, List.filter_append]

theorem lookupA_collect (fs : FS) (models : List String) :
    ∀ (evs : List Event) (st : List (GKey × Entry)) (k : GKey),
      Util.lookupA k (evs.foldl (collectStep fs models) st) =
        threadFold fs models k (Util.lookupA k st) (evsAt k evs) := by
  intro evs
  induction evs with
  | nil => intro st k; rfl
  | cons ev rest ih =>
    intro st k
    rw [List.foldl_cons, ih]
    by_cases h : keyOf ev = some k
    · have hcons : evsAt k (ev :: rest) = ev :: evsAt k rest := by
        simp [evsAt, List.filter_cons, h]
      rw [collectStep_lookup_eq h, hcons]
      rfl
    · have hskip : evsAt k (ev :: rest) = evsAt k rest := by
        simp [evsAt, List.filter_cons, h]
      rw [collectStep_lookup_ne h, hskip]

theorem lookupA_collect_entries (fs : FS) (models : List String) (evs : List Event) (k : GKey) :
    Util.lookupA k (_collect_entries fs models evs) =
      threadFold fs models k none (evsAt k evs) :=
  lookupA_collect fs models evs [] k

theorem threadFold_none_of_ne_nil (fs : FS) (models : List String) (k : GKey)
    {evs : List Event} (h : evs ≠ []) :
    threadFold fs models k none evs =
      threadFold fs models k (some (newEntry models k)) evs := by
  cases evs with
  | nil => exact absurd rfl h
  | cons e l => rfl

theorem threadFold_char (fs : FS) (models : List String) (k : GKey) :
    ∀ (evs : List Event) (e0 : Entry),
      ∃ e, threadFold fs models k (some e0) evs = some e ∧
        e.dataset = e0.dataset ∧ e.task = e0.task ∧ e.sample_id = e0.sample_id ∧
        e.prompt = (evs.map promptOf).foldl pstep e0.prompt ∧
        e.ground_truth_video = (evs.map gtOf).foldl gstep e0.ground_truth_video ∧
        e.image_path = (evs.map imgOf).foldl gstep e0.image_path ∧
        ∀ m, Util.lookupA m e.outputs =
          if evs.filter (fun x => modelOf x = m) = [] then Util.lookupA m e0.outputs
          else some (((evs.filter (fun x => modelOf x = m)).map candOf).foldl
            (_maybe_pick_existing fs) ((Util.lookupA m e0.outputs).getD none)) := by
  intro evs
  induction evs with
  | nil =>
    intro e0
    exact ⟨e0, rfl, rfl, rfl, rfl, rfl, rfl, rfl, fun m => by simp⟩
  | cons ev rest ih =>
    intro e0
    have hstep : threadFold fs models k (some e0) (ev :: rest) =
        threadFold fs models k (some (applyEv fs ev e0)) rest := rfl
    obtain ⟨e, he, hd, ht, hs, hp, hg, hi, ho⟩ := ih (applyEv fs ev e0)
    refine ⟨e, hstep.trans he, ?_, ?_, ?_, ?_, ?_, ?_, ?_⟩
    · exact hd.trans (applyEv_key_fields fs ev e0).1
    · exact ht.trans (applyEv_key_fields fs ev e0).2.1
    · exact hs.trans (applyEv_key_fields fs ev e0).2.2
    · simp only [List.map_cons, List.foldl_cons]
      rw [hp, applyEv_prompt]
    · simp only [List.map_cons, List.foldl_cons]
      rw [hg, applyEv_gt]
    · simp only [List.map_cons, List.foldl_cons]
      rw [hi, applyEv_image]
    · intro m
      have hev := applyEv_outputs_lookup fs ev e0 m
      by_cases hm : modelOf ev = m
      · rw [if_pos hm] at hev
        have hfc : (ev :: rest).filter (fun x => modelOf x = m) =
            ev :: rest.filter (fun x => modelOf x = m) := by
          simp [List.filter_cons, hm]
        rw [ho m, hfc]
        by_cases hr : rest.filter (fun x => modelOf x = m) = []
        · rw [hr]
          simp [hev]
        · rw [if_neg hr, hev]
          simp [hr]
      · rw [if_neg hm] at hev
        have hfc : (ev :: rest).filter (fun x => modelOf x = m) =
            rest.filter (fun x => modelOf x = m) := by
          simp [List.filter_cons, hm]
        rw [ho m, hfc, hev]

theorem pstep_self (v : String) : pstep v v = v := by
  unfold pstep
  split <;> rfl

theorem foldl_pstep_stable (v : String) :
    ∀ l : List String, (∀ x ∈ l, x = v) → l.foldl pstep v = v := by
  intro l
  induction l with
  | nil => intro _; rfl
  | cons a t ih =>
    intro h
    rw [List.foldl_cons, h a (by simp), pstep_self]
    exact ih (fun x hx => h x (by simp [hx]))

theorem foldl_pstep_const {v : String} :
    ∀ l : List String, (∀ x ∈ l, x = v) → l ≠ [] → l.foldl pstep "" = v := by
  intro l
  cases l with
  | nil => intro _ hne; exact absurd rfl hne
  | cons a t =>
    intro h _
    have hps : pstep "" v = v := by unfold pstep; simp
    rw [List.foldl_cons, h a (by simp), hps]
    exact foldl_pstep_stable v t (fun x hx => h x (by simp [hx]))

theorem gstep_stable {c : Option String} (v : String) (hc : c ≠ none) : gstep c v = c := by
  unfold gstep
  rw [if_neg]
  intro hand
  exact hc hand.2

theorem gstep_empty (c : Option String) : gstep c "" = c := by
  unfold gstep
  rw [if_neg]
  intro hand
  exact hand.1 rfl

theorem foldl_gstep_stable {c : Option String} {v : String} (hcv : c ≠ none ∨ v = "") :
    ∀ l : List String, (∀ x ∈ l, x = v) → l.foldl gstep c = c := by
  intro l
  induction l with
  | nil => intro _; rfl
  | cons a t ih =>
    intro h
    have hstep : gstep c a = c := by
      rcases hcv with hc | hv
      · exact gstep_stable a hc
      · rw [h a (by simp), hv]
        exact gstep_empty c
    rw [List.foldl_cons, hstep]
    exact ih (fun x hx => h x (by simp [hx]))

theorem foldl_gstep_const {v : String} :
    ∀ l : List String, (∀ x ∈ l, x = v) → l ≠ [] →
      l.foldl gstep none = if v = "" then none else some v := by
  intro l
  cases l with
  | nil => intro _ hne; exact absurd rfl hne
  | cons a t =>
    intro h _
    rw [List.foldl_cons, h a (by simp)]
    by_cases hv : v = ""
    · have hg : gstep none v = none := by rw [hv]; exact gstep_empty none
      rw [if_pos hv, hg]
      exact foldl_gstep_stable (Or.inr hv) t (fun x hx => h x (by simp [hx]))
    · have hg : gstep none v = some v := by unfold gstep; rw [if_pos ⟨hv, rfl⟩]
      rw [if_neg hv, hg]
      exact foldl_gstep_stable (Or.inl (by simp)) t (fun x hx => h x (by simp [hx]))

end Gallery

namespace Gallery

theorem foldl_pstep_eq {l1 l2 : List String}
    (h : ∀ x ∈ l1 ++ l2, ∀ y ∈ l1 ++ l2, x = y)
    (h1 : l1 ≠ []) (h2 : l2 ≠ []) : l1.foldl pstep "" = l2.foldl pstep "" := by
  cases l1 with
  | nil => exact absurd rfl h1
  | cons a t =>
    have hv1 : ∀ x ∈ a :: t, x = a :=
      fun x hx => h x (List.mem_append_left l2 hx) a (List.mem_append_left l2 (by simp))
    have hv2 : ∀ x ∈ l2, x = a :=
      fun x hx => h x (List.mem_append_right (a :: t) hx) a (List.mem_append_left l2 (by simp))
    rw [foldl_pstep_const (a :: t) hv1 (by simp), foldl_pstep_const l2 hv2 h2]

theorem foldl_gstep_eq {l1 l2 : List String}
    (h : ∀ x ∈ l1 ++ l2, ∀ y ∈ l1 ++ l2, x = y)
    (h1 : l1 ≠ []) (h2 : l2 ≠ []) : l1.foldl gstep none = l2.foldl gstep none := by
  cases l1 with
  | nil => exact absurd rfl h1
  | cons a t =>
    have hv1 : ∀ x ∈ a :: t, x = a :=
      fun x hx => h x (List.mem_append_left l2 hx) a (List.mem_append_left l2 (by simp))
    have hv2 : ∀ x ∈ l2, x = a :=
      fun x hx => h x (List.mem_append_right (a :: t) hx) a (List.mem_append_left l2 (by simp))
    rw [foldl_gstep_const (a :: t) hv1 (by simp), foldl_gstep_const l2 hv2 h2]

theorem filter_model_comm (A B m : String) (hAB : A ≠ B) (LA LB : List Event)
    (hA : ∀ e ∈ LA, modelOf e = A) (hB : ∀ e ∈ LB, modelOf e = B) :
    (LA ++ LB).filter (fun x => modelOf x = m) =
      (LB ++ LA).filter (fun x => modelOf x = m) := by
  rw [List.filter_append, List.filter_append]
  by_cases hmA : m = A
  · have hLB : LB.filter (fun x => modelOf x = m) = [] := by
      rw [List.filter_eq_nil_iff]
      intro e he
      simp only [decide_eq_true_eq]
      rw [hB e he, hmA]
      exact fun hc => hAB hc.symm
    rw [hLB, List.append_nil, List.nil_append]
  · have hLA : LA.filter (fun x => modelOf x = m) = [] := by
      rw [List.filter_eq_nil_iff]
      intro e he
      simp only [decide_eq_true_eq]
      rw [hA e he]
      exact fun hc => hmA hc.symm
    by_cases hmB : m = B
    · rw [hLA, List.append_nil, List.nil_append]
    · have hLB : LB.filter (fun x => modelOf x = m) = [] := by
        rw [List.filter_eq_nil_iff]
        intro e he
        simp only [decide_eq_true_eq]
        rw [hB e he]
        exact fun hc => hmB hc.symm
      rw [hLA, hLB]

theorem lookupA_newEntry_AB (A B m : String) (hAB : A ≠ B) (k : GKey) :
    Util.lookupA m (newEntry [A, B] k).outputs =
      Util.lookupA m (newEntry [B, A] k).outputs := by
  simp only [newEntry, List.map_cons, List.map_nil, Util.lookupA]
  by_cases hA : A = m
  · by_cases hB : B = m
    · exact absurd (hA.trans hB.symm) hAB
    · simp [hA, hB]
  · by_cases hB : B = m
    · simp [hA, hB]
    · simp [hA, hB]

theorem lookupA_newEntry_getD (models : List String) (k : GKey) (m : String) :
    (Util.lookupA m (newEntry models k).outputs).getD none = none := by
  simp only [newEntry]
  induction models with
  | nil => rfl
  | cons a t ih =>
    simp only [List.map_cons, Util.lookupA]
    by_cases h : a = m
    · simp [h]
    · rw [if_neg h]
      exact ih

theorem modelEvents_model {M : String} {ms : List (String × String × List GRow)}
    {ev : Event} (h : ev ∈ modelEvents M ms) : modelOf ev = M := by
  simp only [modelEvents, List.mem_flatMap] at h
  obtain ⟨mani, _, hm⟩ := h
  simp only [List.mem_map] at hm
  obtain ⟨r, _, hr⟩ := hm
  rw [← hr]
  rfl

theorem mapEquiv_prompt {s1 s2 : List (GKey × Entry)} (h : mapEquiv s1 s2) (k : GKey) :
    (Util.lookupA k s1).map Entry.prompt = (Util.lookupA k s2).map Entry.prompt := by
  have hk := h k
  cases h1 : Util.lookupA k s1 with
  | none =>
    cases h2 : Util.lookupA k s2 with
    | none => rfl
    | some b => rw [h1, h2] at hk; exact absurd hk (by simp [optEntryEquiv])
  | some a =>
    cases h2 : Util.lookupA k s2 with
    | none => rw [h1, h2] at hk; exact absurd hk (by simp [optEntryEquiv])
    | some b =>
      rw [h1, h2] at hk
      show some a.prompt = some b.prompt
      rw [hk.2.2.2.1]

end Gallery

namespace Gallery

theorem evsAt_mem {k : GKey} {l : List Event} {e : Event} (h : e ∈ evsAt k l) :
    e ∈ l ∧ keyOf e = some k := by
  have h2 := List.mem_filter.mp h
  exact ⟨h2.1, by simpa using h2.2⟩

theorem pool_map_agree {α β : Type} {f : α → β} {LA LB : List α}
    (hag : ∀ e1 ∈ LA ++ LB, ∀ e2 ∈ LA ++ LB, f e1 = f e2) :
    ∀ x ∈ (LA ++ LB).map f ++ (LB ++ LA).map f,
      ∀ y ∈ (LA ++ LB).map f ++ (LB ++ LA).map f, x = y := by
  have hsw : ∀ e ∈ LB ++ LA, e ∈ LA ++ LB := by
    intro e he
    rcases List.mem_append.mp he with h | h
    · exact List.mem_append_right LA h
    · exact List.mem_append_left LB h
  intro x hx y hy
  have hx2 : ∃ ex ∈ LA ++ LB, f ex = x := by
    rcases List.mem_append.mp hx with h | h
    · obtain ⟨ex, hex, hxe⟩ := List.mem_map.mp h
      exact ⟨ex, hex, hxe⟩
    · obtain ⟨ex, hex, hxe⟩ := List.mem_map.mp h
      exact ⟨ex, hsw ex hex, hxe⟩
  have hy2 : ∃ ey ∈ LA ++ LB, f ey = y := by
    rcases List.mem_append.mp hy with h | h
    · obtain ⟨ey, hey, hye⟩ := List.mem_map.mp h
      exact ⟨ey, hey, hye⟩
    · obtain ⟨ey, hey, hye⟩ := List.mem_map.mp h
      exact ⟨ey, hsw ey hey, hye⟩
  obtain ⟨ex, hex, hxe⟩ := hx2
  obtain ⟨ey, hey, hye⟩ := hy2
  rw [← hxe, ← hye]
  exact hag ex hex ey hey

end Gallery

/-- Claim C3 (amended): gallery aggregation of two models' manifests yields the
same merged map in either processing order, provided any two rows contributing
to the same (dataset, task, sample_id) key agree on their stripped prompt,
ground-truth-video and image fields.  The per-model best-output choice is
order-independent unconditionally (each model's candidates keep their relative
order), but the first-writer-wins prompt/ground-truth/image fields do depend on
the model order when contributing rows disagree — see the counterexample. -/
theorem claim_C3 (fs : Gallery.FS) (A B : String)
    (MA MB : List (String × String × List Gallery.GRow)) (hAB : A ≠ B)
    (hagree : ∀ e1 ∈ Gallery.modelEvents A MA ++ Gallery.modelEvents B MB,
      ∀ e2 ∈ Gallery.modelEvents A MA ++ Gallery.modelEvents B MB,
        Gallery.keyOf e1 = Gallery.keyOf e2 →
          Gallery.promptOf e1 = Gallery.promptOf e2 ∧
          Gallery.gtOf e1 = Gallery.gtOf e2 ∧
          Gallery.imgOf e1 = Gallery.imgOf e2) :
    Gallery.mapEquiv
      (Gallery._collect_entries fs [A, B]
        (Gallery.modelEvents A MA ++ Gallery.modelEvents B MB))
      (Gallery._collect_entries fs [B, A]
        (Gallery.modelEvents B MB ++ Gallery.modelEvents A MA)) := by
  intro k
  rw [Gallery.lookupA_collect_entries, Gallery.lookupA_collect_entries,
    Gallery.evsAt_append, Gallery.evsAt_append]
  by_cases hE : Gallery.evsAt k (Gallery.modelEvents A MA) = [] ∧
      Gallery.evsAt k (Gallery.modelEvents B MB) = []
  · rw [hE.1, hE.2]
    exact trivial
  · have h1 : Gallery.evsAt k (Gallery.modelEvents A MA) ++
        Gallery.evsAt k (Gallery.modelEvents B MB) ≠ [] :=
      fun hnil => hE (List.append_eq_nil.mp hnil)
    have h2 : Gallery.evsAt k (Gallery.modelEvents B MB) ++
        Gallery.evsAt k (Gallery.modelEvents A MA) ≠ [] := by
      intro hnil
      have hn := List.append_eq_nil.mp hnil
      exact hE ⟨hn.2, hn.1⟩
    rw [Gallery.threadFold_none_of_ne_nil fs [A, B] k h1,
      Gallery.threadFold_none_of_ne_nil fs [B, A] k h2]
    obtain ⟨e1, he1, hd1, ht1, hs1, hp1, hg1, hi1, ho1⟩ :=
      Gallery.threadFold_char fs [A, B] k
        (Gallery.evsAt k (Gallery.modelEvents A MA) ++
          Gallery.evsAt k (Gallery.modelEvents B MB))
        (Gallery.newEntry [A, B] k)
    obtain ⟨e2, he2, hd2, ht2, hs2, hp2, hg2, hi2, ho2⟩ :=
      Gallery.threadFold_char fs [B, A] k
        (Gallery.evsAt k (Gallery.modelEvents B MB) ++
          Gallery.evsAt k (Gallery.modelEvents A MA))
        (Gallery.newEntry [B, A] k)
    rw [he1, he2]
    show Gallery.entryEquiv e1 e2
    have hkeyed : ∀ x ∈ Gallery.evsAt k (Gallery.modelEvents A MA) ++
        Gallery.evsAt k (Gallery.modelEvents B MB),
        x ∈ Gallery.modelEvents A MA ++ Gallery.modelEvents B MB ∧
          Gallery.keyOf x = some k := by
      intro x hx
      rcases List.mem_append.mp hx with h | h
      · obtain ⟨hm, hk2⟩ := Gallery.evsAt_mem h
        exact ⟨List.mem_append_left _ hm, hk2⟩
      · obtain ⟨hm, hk2⟩ := Gallery.evsAt_mem h
        exact ⟨List.mem_append_right _ hm, hk2⟩
    have hmapne1 : ∀ f : Gallery.Event → String,
        (Gallery.evsAt k (Gallery.modelEvents A MA) ++
          Gallery.evsAt k (Gallery.modelEvents B MB)).map f ≠ [] :=
      fun f hnil => h1 (List.map_eq_nil_iff.mp hnil)
    have hmapne2 : ∀ f : Gallery.Event → String,
        (Gallery.evsAt k (Gallery.modelEvents B MB) ++
          Gallery.evsAt k (Gallery.modelEvents A MA)).map f ≠ [] :=
      fun f hnil => h2 (List.map_eq_nil_iff.mp hnil)
    refine ⟨?_, ?_, ?_, ?_, ?_, ?_, ?_⟩
    · rw [hd1, hd2]
      rfl
    · rw [ht1, ht2]
      rfl
    · rw [hs1, hs2]
      rfl
    · rw [hp1, hp2]
      have i1 : (Gallery.newEntry [A, B] k).prompt = "" := rfl
      have i2 : (Gallery.newEntry [B, A] k).prompt = "" := rfl
      rw [i1, i2]
      refine Gallery.foldl_pstep_eq (Gallery.pool_map_agree ?_) (hmapne1 _) (hmapne2 _)
      intro x hx y hy
      obtain ⟨hmx, hkx⟩ := hkeyed x hx
      obtain ⟨hmy, hky⟩ := hkeyed y hy
      exact (hagree x hmx y hmy (hkx.trans hky.symm)).1
    · rw [hg1, hg2]
      have i1 : (Gallery.newEntry [A, B] k).ground_truth_video = none := rfl
      have i2 : (Gallery.newEntry [B, A] k).ground_truth_video = none := rfl
      rw [i1, i2]
      refine Gallery.foldl_gstep_eq (Gallery.pool_map_agree ?_) (hmapne1 _) (hmapne2 _)
      intro x hx y hy
      obtain ⟨hmx, hkx⟩ := hkeyed x hx
      obtain ⟨hmy, hky⟩ := hkeyed y hy
      exact (hagree x hmx y hmy (hkx.trans hky.symm)).2.1
    · rw [hi1, hi2]
      have i1 : (Gallery.newEntry [A, B] k).image_path = none := rfl
      have i2 : (Gallery.newEntry [B, A] k).image_path = none := rfl
      rw [i1, i2]
      refine Gallery.foldl_gstep_eq (Gallery.pool_map_agree ?_) (hmapne1 _) (hmapne2 _)
      intro x hx y hy
      obtain ⟨hmx, hkx⟩ := hkeyed x hx
      obtain ⟨hmy, hky⟩ := hkeyed y hy
      exact (hagree x hmx y hmy (hkx.trans hky.symm)).2.2
    · intro m
      have hA2 : ∀ e ∈ Gallery.evsAt k (Gallery.modelEvents A MA), Gallery.modelOf e = A :=
        fun e he => Gallery.modelEvents_model (Gallery.evsAt_mem he).1
      have hB2 : ∀ e ∈ Gallery.evsAt k (Gallery.modelEvents B MB), Gallery.modelOf e = B :=
        fun e he => Gallery.modelEvents_model (Gallery.evsAt_mem he).1
      have hT := Gallery.filter_model_comm A B m hAB _ _ hA2 hB2
      rw [ho1 m, ho2 m, hT]
      by_cases hF : (Gallery.evsAt k (Gallery.modelEvents B MB) ++
          Gallery.evsAt k (Gallery.modelEvents A MA)).filter
            (fun x => Gallery.modelOf x = m) = []
      · rw [if_pos hF, if_pos hF]
        exact Gallery.lookupA_newEntry_AB A B m hAB k
      · rw [if_neg hF, if_neg hF, Gallery.lookupA_newEntry_getD,
          Gallery.lookupA_newEntry_getD]

/-- Counterexample for C3 as stated: two models contribute rows to the same
(dataset, task, sample_id) key with different prompts; first-writer-wins makes
the merged prompt depend on the model processing order, so the merged maps
differ. -/
theorem claim_C3_counterexample :
    ¬ Gallery.mapEquiv
      (Gallery._collect_entries ⟨fun _ => false, fun _ => 0, fun _ => 0⟩ ["m1", "m2"]
        (Gallery.modelEvents "m1" [("d", "t2v", [⟨"s", "pa", "", "", ""⟩])] ++
         Gallery.modelEvents "m2" [("d", "t2v", [⟨"s", "pb", "", "", ""⟩])]))
      (Gallery._collect_entries ⟨fun _ => false, fun _ => 0, fun _ => 0⟩ ["m2", "m1"]
        (Gallery.modelEvents "m2" [("d", "t2v", [⟨"s", "pb", "", "", ""⟩])] ++
         Gallery.modelEvents "m1" [("d", "t2v", [⟨"s", "pa", "", "", ""⟩])])) := by
  intro h
  have hp := Gallery.mapEquiv_prompt h ("d", "t2v", "s")
  exact absurd hp (by decide)

/-- Witness for the amended C3 at a concrete input: two models, one shared
sample whose rows agree on prompt/ground-truth/image, aggregated in both
orders. -/
theorem claim_C3_witness :
    Gallery.mapEquiv
      (Gallery._collect_entries ⟨fun _ => true, fun _ => 1, fun _ => 0⟩ ["m1", "m2"]
        (Gallery.modelEvents "m1" [("d", "t2v", [⟨"s", "p", "/g.mp4", "", "/o1.mp4"⟩])] ++
         Gallery.modelEvents "m2" [("d", "t2v", [⟨"s", "p", "/g.mp4", "", "/o2.mp4"⟩])]))
      (Gallery._collect_entries ⟨fun _ => true, fun _ => 1, fun _ => 0⟩ ["m2", "m1"]
        (Gallery.modelEvents "m2" [("d", "t2v", [⟨"s", "p", "/g.mp4", "", "/o2.mp4"⟩])] ++
         Gallery.modelEvents "m1" [("d", "t2v", [⟨"s", "p", "/g.mp4", "", "/o1.mp4"⟩])])) :=
  claim_C3 ⟨fun _ => true, fun _ => 1, fun _ => 0⟩ "m1" "m2"
    [("d", "t2v", [⟨"s", "p", "/g.mp4", "", "/o1.mp4"⟩])]
    [("d", "t2v", [⟨"s", "p", "/g.mp4", "", "/o2.mp4"⟩])]
    (by decide) (by decide)

namespace Subset

theorem read_jsonl_mem {c : List Payload} {r : String × Payload} (h : r ∈ _read_jsonl c) :
    r.1 = sidOf r.2 ∧ sidOf r.2 ≠ "" ∧ r.2 ∈ c := by
  simp only [_read_jsonl, List.mem_filterMap] at h
  obtain ⟨p, hp, he⟩ := h
  by_cases hs : sidOf p = ""
  · rw [if_pos hs] at he
    exact absurd he (by simp)
  · rw [if_neg hs] at he
    cases he
    exact ⟨rfl, hs, hp⟩

theorem read_jsonl_canonical : ∀ {c : List Payload}, (∀ p ∈ c, sidOf p ≠ "") →
    _read_jsonl c = c.map (fun p => (sidOf p, p)) := by
  intro c
  induction c with
  | nil => intro _; rfl
  | cons a t ih =>
    intro h
    simp only [_read_jsonl, List.filterMap_cons] at ih ⊢
    rw [if_neg (h a (by simp)), List.map_cons, ih (fun p hp => h p (by simp [hp]))]

theorem applyMF_content_mem {sel : List String} {mf : MFile} {p : Payload}
    (hp : p ∈ (applyMF sel mf).content) :
    sidOf p ≠ "" ∧ sel.contains (sidOf p) = true := by
  simp only [applyMF, List.mem_map] at hp
  obtain ⟨r, hr, hrp⟩ := hp
  have hf := List.mem_filter.mp hr
  obtain ⟨h1, h2, _⟩ := read_jsonl_mem hf.1
  rw [← hrp]
  refine ⟨h2, ?_⟩
  rw [← h1]
  exact hf.2

theorem applyMF_content_stable {sel : List String} :
    ∀ {c : List Payload}, (∀ p ∈ c, sidOf p ≠ "" ∧ sel.contains (sidOf p) = true) →
      ((_read_jsonl c).filter (fun r => sel.contains r.1)).map (fun r => r.2) = c := by
  intro c
  induction c with
  | nil => intro _; rfl
  | cons a t ih =>
    intro h
    have ha := h a (by simp)
    simp only [_read_jsonl, List.filterMap_cons] at ih ⊢
    rw [if_neg ha.1, List.filter_cons_of_pos (by simpa using ha.2), List.map_cons,
      ih (fun p hp => h p (by simp [hp]))]

theorem applyMF_stable {sel : List String} {c b : List Payload}
    (h : ∀ p ∈ c, sidOf p ≠ "" ∧ sel.contains (sidOf p) = true) :
    applyMF sel ⟨c, some b⟩ = ⟨c, some b⟩ := by
  simp only [applyMF]
  rw [applyMF_content_stable h]

theorem applyMF_backup_some (sel : List String) (mf : MFile) :
    ∃ B, (applyMF sel mf).backup = some B := by
  cases h : mf.backup with
  | none => exact ⟨(_read_jsonl mf.content).map (fun r => r.2), by simp [applyMF, h]⟩
  | some b => exact ⟨b, by simp [applyMF, h]⟩

theorem applyMF_stable2 {sel1 sel2 : List String}
    (hsub : ∀ s, sel1.contains s = true → sel2.contains s = true) (mf : MFile) :
    applyMF sel2 (applyMF sel1 mf) = applyMF sel1 mf := by
  have hmem : ∀ p ∈ (applyMF sel1 mf).content,
      sidOf p ≠ "" ∧ sel2.contains (sidOf p) = true := by
    intro p hp
    have h := applyMF_content_mem hp
    exact ⟨h.1, hsub _ h.2⟩
  obtain ⟨B, hB⟩ := applyMF_backup_some sel1 mf
  calc applyMF sel2 (applyMF sel1 mf)
      = applyMF sel2 ⟨(applyMF sel1 mf).content, some B⟩ := by rw [← hB]
    _ = ⟨(applyMF sel1 mf).content, some B⟩ := applyMF_stable hmem
    _ = applyMF sel1 mf := by rw [← hB]

theorem applyMF_backup_of_none {sel : List String} {mf : MFile}
    (hb : mf.backup = none) (hc : ∀ p ∈ mf.content, sidOf p ≠ "") :
    (applyMF sel mf).backup = some mf.content := by
  simp only [applyMF, hb]
  rw [read_jsonl_canonical hc, List.map_map]
  rw [show ((fun r : String × Payload => r.2) ∘ fun p : Payload => (sidOf p, p)) =
    fun p => p from rfl, List.map_id']

theorem applyMF_ids (sel : List String) (c0 : List Payload) (b : Option (List Payload)) :
    (_read_jsonl ((applyMF sel ⟨c0, b⟩).content)).map (fun r => r.1) =
      ((_read_jsonl c0).map (fun r => r.1)).filter (fun s => sel.contains s) := by
  have hcanon : ∀ p ∈ (applyMF sel ⟨c0, b⟩).content, sidOf p ≠ "" :=
    fun p hp => (applyMF_content_mem hp).1
  rw [read_jsonl_canonical hcanon, List.map_map]
  show ((applyMF sel ⟨c0, b⟩).content).map (fun p => sidOf p) = _
  simp only [applyMF, List.map_map]
  rw [List.filter_map]
  have hcongr : ∀ r ∈ (_read_jsonl c0).filter
      ((fun s => sel.contains s) ∘ (fun r => r.1)), sidOf r.2 = r.1 := by
    intro r hr
    exact (read_jsonl_mem (List.mem_filter.mp hr).1).1.symm
  calc ((_read_jsonl c0).filter ((fun s => sel.contains s) ∘ (fun r => r.1))).map
        ((fun p => sidOf p) ∘ (fun r : String × Payload => r.2))
      = ((_read_jsonl c0).filter ((fun s => sel.contains s) ∘ (fun r => r.1))).map
        (fun r : String × Payload => r.1) := List.map_congr_left hcongr
    _ = _ := by rw [← List.filter_map]

end Subset

namespace Subset

theorem applyOne_lookup_self (sel : List String) (k : SKey) (st : Layout) :
    Util.lookupA k (applyOne sel false k st).1 = (Util.lookupA k st).map (applyMF sel) := by
  unfold applyOne
  cases h : Util.lookupA k st with
  | none => simpa using h
  | some mf => exact Util.lookupA_updateA_self k _ st

theorem applyOne_lookup_ne (sel : List String) {k k2 : SKey} (h : k ≠ k2) (dr : Bool)
    (st : Layout) : Util.lookupA k2 (applyOne sel dr k st).1 = Util.lookupA k2 st := by
  unfold applyOne
  cases hl : Util.lookupA k st with
  | none => rfl
  | some mf =>
    cases dr with
    | false => exact Util.lookupA_updateA_ne h _ st
    | true => rfl

theorem applyPairs_lookup (sel : List String) :
    ∀ (ks : List SKey) (st : Layout) (k : SKey),
      Util.lookupA k (applyPairs sel false ks st).1 =
        if k ∈ ks then (Util.lookupA k st).map (applyMF sel) else Util.lookupA k st := by
  intro ks
  induction ks with
  | nil => intro st k; simp [applyPairs]
  | cons k0 rest ih =>
    intro st k
    show Util.lookupA k (applyPairs sel false rest (applyOne sel false k0 st).1).1 = _
    rw [ih]
    by_cases hk : k = k0
    · subst hk
      by_cases hr : k ∈ rest
      · rw [if_pos hr, if_pos (by simp), applyOne_lookup_self]
        cases hl : Util.lookupA k st with
        | none => rfl
        | some mf =>
          show some (applyMF sel (applyMF sel mf)) = some (applyMF sel mf)
          rw [applyMF_stable2 (fun _ hs => hs) mf]
      · rw [if_neg hr, if_pos (by simp), applyOne_lookup_self]
    · rw [applyOne_lookup_ne sel (fun he => hk he.symm) false st]
      by_cases hr : k ∈ rest
      · rw [if_pos hr, if_pos (List.mem_cons_of_mem k0 hr)]
      · rw [if_neg hr, if_neg (by simp [hk, hr])]

theorem pairsFor_dataset {models tasks : List String} {d : String} {k : SKey}
    (h : k ∈ pairsFor models tasks d) : k.2.1 = d := by
  simp only [pairsFor, List.mem_flatMap] at h
  obtain ⟨m, _, hm⟩ := h
  simp only [List.mem_map] at hm
  obtain ⟨t, _, ht⟩ := hm
  rw [← ht]

theorem runDataset_none {refModel refTask : String} {models tasks : List String}
    {maxPer : Int} {preference : List String} {dryRun : Bool} {d : String} {st : Layout}
    (h : Util.lookupA (refModel, d, refTask) st = none) :
    runDataset refModel refTask models tasks maxPer preference dryRun d st =
      ([SubEff.statManifest (refModel, d, refTask)],
       .error ("Reference manifest not found for dataset " ++ d)) := by
  simp only [runDataset]
  rw [h]

theorem runDataset_ok {refModel refTask : String} {models tasks : List String}
    {maxPer : Int} {preference : List String} {dryRun : Bool} {d : String} {st : Layout}
    {mf : MFile} (h : Util.lookupA (refModel, d, refTask) st = some mf) :
    runDataset refModel refTask models tasks maxPer preference dryRun d st =
      ([SubEff.statManifest (refModel, d, refTask),
        SubEff.readManifest (refModel, d, refTask)] ++
        (applyPairs (selectedFor maxPer preference mf.content) dryRun
          (pairsFor models tasks d) st).2,
       .ok (applyPairs (selectedFor maxPer preference mf.content) dryRun
          (pairsFor models tasks d) st).1) := by
  simp only [runDataset]
  rw [h]

end Subset

namespace Subset

theorem buildGroups_keys_mono : ∀ (ids : List String) (gs : Groups) (g : String),
    g ∈ gs.map Prod.fst → g ∈ (buildGroups ids gs).map Prod.fst := by
  intro ids
  induction ids with
  | nil => intro gs g h; simpa [buildGroups] using h
  | cons sid rest ih =>
    intro gs g h
    simp only [buildGroups]
    apply ih
    rw [insertSampleG_keys]
    split
    · exact h
    · exact List.mem_append_left _ h

theorem buildGroups_key_present : ∀ (ids : List String) (gs : Groups) {sid : String},
    sid ∈ ids → (_sample_group sid).1 ∈ (buildGroups ids gs).map Prod.fst := by
  intro ids
  induction ids with
  | nil => intro gs sid h; simp at h
  | cons a rest ih =>
    intro gs sid h
    rcases List.mem_cons.mp h with he | hm
    · subst he
      simp only [buildGroups]
      apply buildGroups_keys_mono
      rw [insertSampleG_keys]
      split
      · next hmem => exact hmem
      · exact List.mem_append_right _ (by simp)
    · simp only [buildGroups]
      exact ih _ hm

theorem buildGroups_keys_sub : ∀ (ids : List String) (gs : Groups) (g : String),
    g ∈ (buildGroups ids gs).map Prod.fst →
    g ∈ gs.map Prod.fst ∨ ∃ sid ∈ ids, (_sample_group sid).1 = g := by
  intro ids
  induction ids with
  | nil => intro gs g h; exact Or.inl (by simpa [buildGroups] using h)
  | cons sid rest ih =>
    intro gs g h
    simp only [buildGroups] at h
    rcases ih _ g h with h1 | h1
    · rw [insertSampleG_keys] at h1
      split at h1
      · exact Or.inl h1
      · rcases List.mem_append.mp h1 with h2 | h2
        · exact Or.inl h2
        · simp only [List.mem_singleton] at h2
          exact Or.inr ⟨sid, by simp, h2.symm⟩
    · obtain ⟨x, hx, hgx⟩ := h1
      exact Or.inr ⟨x, by simp [hx], hgx⟩

theorem updateA_ne_nil {κ α : Type} [DecidableEq κ] (k : κ) (v : α) :
    ∀ l : List (κ × α), Util.updateA k v l ≠ [] := by
  intro l
  cases l with
  | nil => simp [Util.updateA]
  | cons p rest =>
    obtain ⟨a, b⟩ := p
    simp only [Util.updateA]
    split <;> simp

theorem insertSampleG_bucket_ne_nil (gkey bkey sid : String) :
    ∀ (gs : Groups), (∀ g b, (g, b) ∈ gs → b ≠ []) →
      ∀ g b, (g, b) ∈ insertSampleG gkey bkey sid gs → b ≠ [] := by
  intro gs
  induction gs with
  | nil =>
    intro _ g b h
    simp [insertSampleG] at h
    rw [h.2]
    simp
  | cons p rest ih =>
    intro hinv g b h
    obtain ⟨g0, b0⟩ := p
    by_cases hg : g0 = gkey
    · subst hg
      simp only [insertSampleG, if_pos rfl] at h
      rcases List.mem_cons.mp h with he | hm
      · cases he
        exact updateA_ne_nil _ _ _
      · exact hinv g b (List.mem_cons_of_mem _ hm)
    · simp only [insertSampleG, if_neg hg] at h
      rcases List.mem_cons.mp h with he | hm
      · cases he
        exact hinv _ _ (List.mem_cons_self _ _)
      · exact ih (fun g2 b2 h2 => hinv g2 b2 (List.mem_cons_of_mem _ h2)) g b hm

theorem buildGroups_bucket_ne_nil : ∀ (ids : List String) (gs : Groups),
    (∀ g b, (g, b) ∈ gs → b ≠ []) →
    ∀ g b, (g, b) ∈ buildGroups ids gs → b ≠ [] := by
  intro ids
  induction ids with
  | nil => intro gs h; simpa [buildGroups] using h
  | cons sid rest ih =>
    intro gs h
    simp only [buildGroups]
    exact ih _ (insertSampleG_bucket_ne_nil _ _ _ gs h)

theorem chooseFromBucket_of_const {pref : List String} {b : Bucket} {s : String}
    (hne : b ≠ []) (hall : ∀ k v, (k, v) ∈ b → v = s) :
    chooseFromBucket pref b = some s := by
  obtain ⟨x, hx⟩ := @chooseFromBucket_isSome pref b hne
  obtain ⟨k, hk⟩ := chooseFromBucket_mem hx
  rw [hx, hall k x hk]

theorem selectGo_complete (pref : List String) (maxPer : Int) :
    ∀ (gs : Groups) (count : Nat),
      (0 < maxPer → (count : Int) + gs.length ≤ maxPer) →
      ∀ {g b x}, (g, b) ∈ gs → chooseFromBucket pref b = some x →
        x ∈ selectGo pref maxPer count gs := by
  intro gs
  induction gs with
  | nil =>
    intro count _ g b x hmem _
    simp at hmem
  | cons p rest ih =>
    intro count hbound g b x hmem hch
    obtain ⟨g0, b0⟩ := p
    simp only [selectGo]
    cases hch0 : chooseFromBucket pref b0 with
    | none =>
      rcases List.mem_cons.mp hmem with he | hm
      · cases he
        rw [hch0] at hch
        exact absurd hch (by simp)
      · refine ih count ?_ hm hch
        intro hpos
        have := hbound hpos
        simp only [List.length_cons] at this
        push_cast at this ⊢
        omega
    | some sid =>
      show x ∈ if maxPer > 0 ∧ ((count : Int) + 1 ≥ maxPer) then [sid]
        else sid :: selectGo pref maxPer (count + 1) rest
      split
      · next hbrk =>
        have h0 : 0 < maxPer := hbrk.1
        have hb2 := hbound h0
        simp only [List.length_cons] at hb2
        have hrest : rest.length = 0 := by
          push_cast at hb2
          omega
        have hrnil : rest = [] := List.length_eq_zero.mp hrest
        subst hrnil
        rcases List.mem_cons.mp hmem with he | hm
        · cases he
          rw [hch0] at hch
          cases hch
          exact List.mem_singleton.mpr rfl
        · simp at hm
      · next hbrk =>
        rcases List.mem_cons.mp hmem with he | hm
        · cases he
          rw [hch0] at hch
          cases hch
          exact List.mem_cons_self _ _
        · refine List.mem_cons_of_mem _ (ih (count + 1) ?_ hm hch)
          intro hpos
          have := hbound hpos
          simp only [List.length_cons] at this
          push_cast at this ⊢
          omega

theorem select_ids_complete (ids2 : List String) (maxPer : Int) (pref : List String)
    (s : String) (hs2 : s ∈ ids2)
    (hconst : ∀ v ∈ ids2, (_sample_group v).1 = (_sample_group s).1 → v = s)
    (hbound : 0 < maxPer → ((buildGroups ids2 []).length : Int) ≤ maxPer) :
    s ∈ _select_ids ids2 maxPer pref := by
  have hkey := buildGroups_key_present ids2 [] hs2
  obtain ⟨⟨g, b⟩, hgb, hfst⟩ := List.mem_map.mp hkey
  have hbne : b ≠ [] :=
    buildGroups_bucket_ne_nil ids2 [] (fun g2 b2 h2 => absurd h2 (by simp)) g b hgb
  have hinv0 : ∀ g2 b2, (g2, b2) ∈ ([] : Groups) → ∀ k v, (k, v) ∈ b2 →
      v ∈ ids2 ∧ (_sample_group v).1 = g2 ∧ k = bucketKey (_sample_group v).2 :=
    fun g2 b2 h => absurd h (by simp)
  have hall : ∀ k v, (k, v) ∈ b → v = s := by
    intro k v hkv
    have hv := buildGroups_inv ids2 ids2 [] (fun a ha => ha) hinv0 g b hgb k v hkv
    exact hconst v hv.1 (by rw [hv.2.1]; exact hfst)
  have hch : chooseFromBucket pref b = some s := chooseFromBucket_of_const hbne hall
  simp only [_select_ids]
  refine selectGo_complete pref maxPer _ 0 ?_ hgb hch
  intro hpos
  have := hbound hpos
  push_cast at this ⊢
  omega

theorem select_ids_stable (ids : List String) (maxPer : Int) (pref : List String) :
    ∀ s ∈ _select_ids ids maxPer pref,
      s ∈ _select_ids
        (ids.filter (fun x => (_select_ids ids maxPer pref).contains x)) maxPer pref := by
  intro s hs
  have hinv0 : ∀ g b, (g, b) ∈ ([] : Groups) → ∀ k v, (k, v) ∈ b →
      v ∈ ids ∧ (_sample_group v).1 = g ∧ k = bucketKey (_sample_group v).2 :=
    fun g b h => absurd h (by simp)
  have hmemS : ∀ x ∈ _select_ids ids maxPer pref, x ∈ ids := by
    intro x hx
    simp only [_select_ids] at hx
    obtain ⟨g, b, hgb, hch⟩ := selectGo_mem pref maxPer _ 0 hx
    obtain ⟨k, hk⟩ := chooseFromBucket_mem hch
    exact (buildGroups_inv ids ids [] (fun a ha => ha) hinv0 g b hgb k x hk).1
  have hpair : (_select_ids ids maxPer pref).Pairwise
      (fun a c => (_sample_group a).1 ≠ (_sample_group c).1) := by
    simp only [_select_ids]
    exact selectGo_pairwise pref maxPer _ 0
      (buildGroups_keys_nodup ids [] (by simp))
      (fun g b hgb k v hkv =>
        (buildGroups_inv ids ids [] (fun a ha => ha) hinv0 g b hgb k v hkv).2.1)
  have hlen : 0 < maxPer → (_select_ids ids maxPer pref).length ≤ maxPer.toNat := by
    intro hpos
    simp only [_select_ids]
    have := selectGo_length pref maxPer hpos (buildGroups ids []) 0 (by exact_mod_cast hpos)
    omega
  have huniq : ∀ v ∈ _select_ids ids maxPer pref,
      (_sample_group v).1 = (_sample_group s).1 → v = s := by
    intro v hv hgv
    by_contra hne
    exact List.Pairwise.forall (fun a c h => Ne.symm h) hpair hv hs hne hgv
  apply select_ids_complete
  · exact List.mem_filter.mpr ⟨hmemS s hs, by simpa using Util.contains_true_of_mem hs⟩
  · intro v hv hgv
    have hvf := List.mem_filter.mp hv
    exact huniq v (Util.mem_of_contains_true (by simpa using hvf.2)) hgv
  · intro hpos
    have hkeys_sub : ∀ g ∈ (buildGroups
        (ids.filter (fun x => (_select_ids ids maxPer pref).contains x)) []).map Prod.fst,
        g ∈ (_select_ids ids maxPer pref).map (fun v => (_sample_group v).1) := by
      intro g hg
      rcases buildGroups_keys_sub _ [] g hg with h1 | h1
      · simp at h1
      · obtain ⟨sid, hsid, hgs⟩ := h1
        have hsf := List.mem_filter.mp hsid
        exact List.mem_map.mpr
          ⟨sid, Util.mem_of_contains_true (by simpa using hsf.2), hgs⟩
    have hnd : ((buildGroups
        (ids.filter (fun x => (_select_ids ids maxPer pref).contains x)) []).map
          Prod.fst).Nodup :=
      buildGroups_keys_nodup _ [] (by simp)
    have hle := (List.subperm_of_subset hnd hkeys_sub).length_le
    simp only [List.length_map] at hle
    have hlen2 := hlen hpos
    have htn : ((maxPer.toNat : Int)) = maxPer := Int.toNat_of_nonneg (le_of_lt hpos)
    omega

end Subset

namespace Subset

theorem applyMF_ids2 (sel : List String) (mf : MFile) :
    (_read_jsonl ((applyMF sel mf).content)).map (fun r => r.1) =
      ((_read_jsonl mf.content).map (fun r => r.1)).filter (fun s => sel.contains s) :=
  applyMF_ids sel mf.content mf.backup

theorem runDatasets_cons_ok {refM refT : String} {ms ts : List String} {maxPer : Int}
    {pf : List String} {dr : Bool} {d : String} {rest : List String} {st : Layout}
    {mf : MFile} (href : Util.lookupA (refM, d, refT) st = some mf) :
    runDatasets refM refT ms ts maxPer pf dr (d :: rest) st =
      (([SubEff.statManifest (refM, d, refT), SubEff.readManifest (refM, d, refT)] ++
          (applyPairs (selectedFor maxPer pf mf.content) dr (pairsFor ms ts d) st).2) ++
        (runDatasets refM refT ms ts maxPer pf dr rest
          (applyPairs (selectedFor maxPer pf mf.content) dr (pairsFor ms ts d) st).1).1,
       (runDatasets refM refT ms ts maxPer pf dr rest
          (applyPairs (selectedFor maxPer pf mf.content) dr (pairsFor ms ts d) st).1).2) := by
  simp only [runDatasets]
  rw [runDataset_ok href]

theorem runDatasets_cons_none {refM refT : String} {ms ts : List String} {maxPer : Int}
    {pf : List String} {dr : Bool} {d : String} {rest : List String} {st : Layout}
    (href : Util.lookupA (refM, d, refT) st = none) :
    runDatasets refM refT ms ts maxPer pf dr (d :: rest) st =
      ([SubEff.statManifest (refM, d, refT)],
       .error ("Reference manifest not found for dataset " ++ d)) := by
  simp only [runDatasets]
  rw [runDataset_none href]

theorem runDatasets_out {refM refT : String} {ms ts : List String} {maxPer : Int}
    {pf : List String} :
    ∀ (ds : List String) (st : Layout) (tr : List SubEff) (st1 : Layout),
      runDatasets refM refT ms ts maxPer pf false ds st = (tr, .ok st1) →
      ∀ k : SKey, (∀ d ∈ ds, k ∉ pairsFor ms ts d) →
        Util.lookupA k st1 = Util.lookupA k st := by
  intro ds
  induction ds with
  | nil =>
    intro st tr st1 h k _
    simp only [runDatasets, Prod.mk.injEq] at h
    obtain ⟨_, h2⟩ := h
    injection h2 with h3
    rw [h3]
  | cons d0 rest ih =>
    intro st tr st1 h k hout
    cases href : Util.lookupA (refM, d0, refT) st with
    | none =>
      rw [runDatasets_cons_none href, Prod.mk.injEq] at h
      exact absurd h.2 (by simp)
    | some mf =>
      rw [runDatasets_cons_ok href, Prod.mk.injEq] at h
      have hpair : runDatasets refM refT ms ts maxPer pf false rest
          (applyPairs (selectedFor maxPer pf mf.content) false (pairsFor ms ts d0) st).1 =
          ((runDatasets refM refT ms ts maxPer pf false rest
            (applyPairs (selectedFor maxPer pf mf.content) false
              (pairsFor ms ts d0) st).1).1, .ok st1) := by
        rw [← h.2]
      have hrest := ih _ _ _ hpair k (fun d hd => hout d (List.mem_cons_of_mem _ hd))
      rw [hrest, applyPairs_lookup, if_neg (hout d0 (List.mem_cons_self _ _))]

theorem runDatasets_in {refM refT : String} {ms ts : List String} {maxPer : Int}
    {pf : List String} :
    ∀ (ds : List String) (st : Layout) (tr : List SubEff) (st1 : Layout),
      ds.Nodup →
      runDatasets refM refT ms ts maxPer pf false ds st = (tr, .ok st1) →
      ∀ (d : String) (k : SKey), d ∈ ds → k ∈ pairsFor ms ts d →
        ∃ mf, Util.lookupA (refM, d, refT) st = some mf ∧
          Util.lookupA k st1 = (Util.lookupA k st).map
            (applyMF (selectedFor maxPer pf mf.content)) := by
  intro ds
  induction ds with
  | nil =>
    intro st tr st1 _ _ d k hd _
    simp at hd
  | cons d0 rest ih =>
    intro st tr st1 hnodup h d k hd hkp
    rw [List.nodup_cons] at hnodup
    cases href : Util.lookupA (refM, d0, refT) st with
    | none =>
      rw [runDatasets_cons_none href, Prod.mk.injEq] at h
      exact absurd h.2 (by simp)
    | some mf =>
      rw [runDatasets_cons_ok href, Prod.mk.injEq] at h
      have hpair : runDatasets refM refT ms ts maxPer pf false rest
          (applyPairs (selectedFor maxPer pf mf.content) false (pairsFor ms ts d0) st).1 =
          ((runDatasets refM refT ms ts maxPer pf false rest
            (applyPairs (selectedFor maxPer pf mf.content) false
              (pairsFor ms ts d0) st).1).1, .ok st1) := by
        rw [← h.2]
      rcases List.mem_cons.mp hd with he | hm
      · subst he
        have hkd : k.2.1 = d := pairsFor_dataset hkp
        have hnotrest : ∀ d2 ∈ rest, k ∉ pairsFor ms ts d2 := by
          intro d2 hd2 hk2
          have : d = d2 := (pairsFor_dataset hkp).symm.trans (pairsFor_dataset hk2)
          rw [this] at hnodup
          exact hnodup.1 hd2
        have hrest := runDatasets_out _ _ _ _ hpair k hnotrest
        refine ⟨mf, href, ?_⟩
        rw [hrest, applyPairs_lookup, if_pos hkp]
      · have hd0ne : d ≠ d0 := by
          intro he
          rw [he] at hm
          exact hnodup.1 hm
        obtain ⟨mf2, hmf2, hlook⟩ := ih _ _ _ hnodup.2 hpair d k hm hkp
        have hrefnot : (refM, d, refT) ∉ pairsFor ms ts d0 := by
          intro hmem
          exact hd0ne (pairsFor_dataset hmem)
        have hknot : k ∉ pairsFor ms ts d0 := by
          intro hmem
          exact hd0ne ((pairsFor_dataset hkp).symm.trans (pairsFor_dataset hmem))
        rw [applyPairs_lookup, if_neg hrefnot] at hmf2
        rw [applyPairs_lookup, if_neg hknot] at hlook
        exact ⟨mf2, hmf2, hlook⟩

theorem subMain_ok_run {args : SubArgs} {st : Layout} {tr : List SubEff} {st1 : Layout}
    (h : subMain true args st = (tr, Except.ok st1)) :
    runDatasets args.referenceModel args.referenceTask
        (Util.splitCommaTrim args.models) (Util.splitCommaTrim args.tasks)
        args.maxPerDataset (Util.splitCommaTrim args.perspectivePreference) args.dryRun
        (Util.splitCommaTrim args.datasets) st =
      ((runDatasets args.referenceModel args.referenceTask
        (Util.splitCommaTrim args.models) (Util.splitCommaTrim args.tasks)
        args.maxPerDataset (Util.splitCommaTrim args.perspectivePreference) args.dryRun
        (Util.splitCommaTrim args.datasets) st).1, Except.ok st1) := by
  simp only [subMain] at h
  rw [if_neg (fun hc => hc trivial)] at h
  by_cases hbad : (Util.splitCommaTrim args.perspectivePreference).filter
      (fun p => !PERSPECTIVES.contains p) ≠ []
  · rw [if_pos hbad, Prod.mk.injEq] at h
    exact absurd h.2 (by simp)
  · rw [if_neg hbad] at h
    by_cases hne : Util.splitCommaTrim args.datasets = [] ∨
        Util.splitCommaTrim args.models = [] ∨ Util.splitCommaTrim args.tasks = []
    · rw [if_pos hne, Prod.mk.injEq] at h
      exact absurd h.2 (by simp)
    · rw [if_neg hne, Prod.mk.injEq] at h
      rw [← h.2]

end Subset

/-- Claim C6 (amended): over a canonical layout — every manifest row has a
non-empty stripped `sample_id` and no backup exists yet — running the subsetter
twice with identical arguments (distinct dataset names, non-dry-run) is
backup-safe: the second run leaves the layout untouched (every manifest's
filtered content and backup equal those after the first run), and after the
first run each present manifest either is untouched with no backup or carries
a backup equal to its pre-first-run content.  Without canonicality the backup
is not byte-identical to the original manifest: rows with an empty sample_id
are dropped when the parsed rows are re-serialized (see the counterexample). -/
theorem claim_C6 (args : Subset.SubArgs) (st0 st1 st2 : Subset.Layout)
    (tr1 tr2 : List Subset.SubEff)
    (hdry : args.dryRun = false)
    (hnodup : (Util.splitCommaTrim args.datasets).Nodup)
    (hcanon : ∀ kv ∈ st0, (∀ p ∈ kv.2.content, Subset.sidOf p ≠ "") ∧ kv.2.backup = none)
    (h1 : Subset.subMain true args st0 = (tr1, Except.ok st1))
    (h2 : Subset.subMain true args st1 = (tr2, Except.ok st2)) :
    (∀ k, Util.lookupA k st2 = Util.lookupA k st1) ∧
    (∀ k mf0 mf1, Util.lookupA k st0 = some mf0 → Util.lookupA k st1 = some mf1 →
      (mf1 = mf0 ∧ mf1.backup = none) ∨ mf1.backup = some mf0.content) := by
  have hrun1 := Subset.subMain_ok_run h1
  have hrun2 := Subset.subMain_ok_run h2
  rw [hdry] at hrun1 hrun2
  constructor
  · intro k
    by_cases hg : ∃ d ∈ Util.splitCommaTrim args.datasets,
        k ∈ Subset.pairsFor (Util.splitCommaTrim args.models)
          (Util.splitCommaTrim args.tasks) d
    · obtain ⟨d, hd, hkp⟩ := hg
      obtain ⟨mf1r, hmf1r, hlook2⟩ := Subset.runDatasets_in _ _ _ _ hnodup hrun2 d k hd hkp
      obtain ⟨mf0r, hmf0r, hlook1⟩ := Subset.runDatasets_in _ _ _ _ hnodup hrun1 d k hd hkp
      have hsub : ∀ s, (Subset.selectedFor args.maxPerDataset
            (Util.splitCommaTrim args.perspectivePreference) mf0r.content).contains s =
              true →
          (Subset.selectedFor args.maxPerDataset
            (Util.splitCommaTrim args.perspectivePreference) mf1r.content).contains s =
              true := by
        by_cases hrg : (args.referenceModel, d, args.referenceTask) ∈
            Subset.pairsFor (Util.splitCommaTrim args.models)
              (Util.splitCommaTrim args.tasks) d
        · obtain ⟨mfr2, hmfr2, hlookr⟩ :=
            Subset.runDatasets_in _ _ _ _ hnodup hrun1 d
              (args.referenceModel, d, args.referenceTask) hd hrg
          rw [hmf0r] at hmfr2
          injection hmfr2 with hmfr2e
          subst hmfr2e
          rw [hmf0r, Option.map_some', hmf1r] at hlookr
          injection hlookr with hmf1e
          rw [hmf1e]
          intro s hs
          apply Util.contains_true_of_mem
          have hsmem : s ∈ Subset._select_ids
              ((Subset._read_jsonl mf0r.content).map (fun r => r.1)) args.maxPerDataset
              (Util.splitCommaTrim args.perspectivePreference) :=
            Util.mem_of_contains_true hs
          have hstab := Subset.select_ids_stable
            ((Subset._read_jsonl mf0r.content).map (fun r => r.1)) args.maxPerDataset
            (Util.splitCommaTrim args.perspectivePreference) s hsmem
          simp only [Subset.selectedFor]
          rw [Subset.applyMF_ids2]
          exact hstab
        · have hrefout : ∀ d2 ∈ Util.splitCommaTrim args.datasets,
              (args.referenceModel, d, args.referenceTask) ∉
                Subset.pairsFor (Util.splitCommaTrim args.models)
                  (Util.splitCommaTrim args.tasks) d2 := by
            intro d2 _ hmem
            have hdd : d = d2 := Subset.pairsFor_dataset hmem
            rw [← hdd] at hmem
            exact hrg hmem
          have hsame := Subset.runDatasets_out _ _ _ _ hrun1
            (args.referenceModel, d, args.referenceTask) hrefout
          rw [hmf1r, hmf0r] at hsame
          injection hsame with he
          rw [he]
          exact fun s hs => hs
      rw [hlook2, hlook1]
      cases hk0 : Util.lookupA k st0 with
      | none => rfl
      | some mf0 =>
        show some (Subset.applyMF _ (Subset.applyMF _ mf0)) = some (Subset.applyMF _ mf0)
        rw [Subset.applyMF_stable2 hsub mf0]
    · push_neg at hg
      exact Subset.runDatasets_out _ _ _ _ hrun2 k hg
  · intro k mf0 mf1 hk0 hk1
    by_cases hg : ∃ d ∈ Util.splitCommaTrim args.datasets,
        k ∈ Subset.pairsFor (Util.splitCommaTrim args.models)
          (Util.splitCommaTrim args.tasks) d
    · obtain ⟨d, hd, hkp⟩ := hg
      obtain ⟨mf0r, hmf0r, hlook1⟩ := Subset.runDatasets_in _ _ _ _ hnodup hrun1 d k hd hkp
      rw [hk0, Option.map_some', hk1] at hlook1
      injection hlook1 with hmf1e
      right
      rw [hmf1e]
      have hcan := hcanon (k, mf0) (Util.lookupA_mem hk0)
      exact Subset.applyMF_backup_of_none hcan.2 hcan.1
    · push_neg at hg
      have hsame := Subset.runDatasets_out _ _ _ _ hrun1 k hg
      rw [hk1, hk0] at hsame
      injection hsame with he
      left
      refine ⟨he, ?_⟩
      rw [he]
      exact (hcanon (k, mf0) (Util.lookupA_mem hk0)).2

/-- Witness for the amended C6: one dataset, one model/task, one canonical
row; both runs computed concretely. -/
theorem claim_C6_witness :
    (∀ k, Util.lookupA k
        [(("m", "d", "t"), Subset.MFile.mk [[("sample_id", "a")]]
          (some [[("sample_id", "a")]]))] =
      Util.lookupA k
        [(("m", "d", "t"), Subset.MFile.mk [[("sample_id", "a")]]
          (some [[("sample_id", "a")]]))]) ∧
    (∀ k mf0 mf1,
      Util.lookupA k [(("m", "d", "t"), Subset.MFile.mk [[("sample_id", "a")]] none)] =
        some mf0 →
      Util.lookupA k
        [(("m", "d", "t"), Subset.MFile.mk [[("sample_id", "a")]]
          (some [[("sample_id", "a")]]))] = some mf1 →
      (mf1 = mf0 ∧ mf1.backup = none) ∨ mf1.backup = some mf0.content) :=
  claim_C6 ⟨"/rr", "d", "m", "t", 20, "center", "m", "t", false⟩
    [(("m", "d", "t"), ⟨[[("sample_id", "a")]], none⟩)]
    [(("m", "d", "t"), ⟨[[("sample_id", "a")]], some [[("sample_id", "a")]]⟩)]
    [(("m", "d", "t"), ⟨[[("sample_id", "a")]], some [[("sample_id", "a")]]⟩)]
    [Subset.SubEff.statRunRoot "/rr",
     Subset.SubEff.statManifest ("m", "d", "t"), Subset.SubEff.readManifest ("m", "d", "t"),
     Subset.SubEff.statManifest ("m", "d", "t"), Subset.SubEff.readManifest ("m", "d", "t"),
     Subset.SubEff.writeBackup ("m", "d", "t"), Subset.SubEff.writeManifest ("m", "d", "t")]
    [Subset.SubEff.statRunRoot "/rr",
     Subset.SubEff.statManifest ("m", "d", "t"), Subset.SubEff.readManifest ("m", "d", "t"),
     Subset.SubEff.statManifest ("m", "d", "t"), Subset.SubEff.readManifest ("m", "d", "t"),
     Subset.SubEff.writeManifest ("m", "d", "t")]
    rfl (by decide) (by decide) rfl rfl

/-- Counterexample for C6 as stated: a manifest holding one row whose
`sample_id` is empty.  The backup is written from the parsed rows, which drop
that row, so the backup is not byte-identical to the pre-run manifest. -/
theorem claim_C6_counterexample :
    (Subset.subMain true ⟨"/rr", "d", "m", "t", 20, "center", "m", "t", false⟩
        [(("m", "d", "t"), Subset.MFile.mk [[("sample_id", "")]] none)]).2 =
      Except.ok [(("m", "d", "t"), Subset.MFile.mk [] (some []))] ∧
    some ([] : List Subset.Payload) ≠ some [[("sample_id", "")]] :=
  ⟨rfl, by decide⟩
